import Mathlib

/-!
# SingleLinkedList (single-linked-list.h): a shallow embedding

The C++ class template `SingleLinkedList<Type>` is embedded over an explicit
node memory.  A `Node*` is an `Option Nat` (`none` is `nullptr`), a node lives in
a memory cell, `new` takes a fresh cell at the end of the memory and `delete`
empties a cell.  The sentinel `head_` is a `Node` too: it lives in the cell that
belongs to the list object, so `&head_` is an ordinary node address, as in the
source.  Every operation threads the memory and the list object it works on.
Allocation always succeeds: `std::bad_alloc` is outside the model.

Running code ends in one of three ways: with a value, with undefined behaviour
(a failed `assert`, a null or dangling dereference), or, for the loops that are
driven by iterator comparison, with the supplied fuel used up.

The counter `size_` is a `size_t`.  `--size_` wraps at zero exactly as in the source.
`++size_` is modelled as `+ 1` on `Nat`, which is the source's result whenever `size_`
is below `2^64 - 1`.  That holds for every list whose `size_` is the number of its live
nodes, since a live node occupies storage; every theorem whose conclusion depends on
the value of `size_` after `PushFront` or `InsertAfter` therefore assumes that `size_`
equals the chain length.  (A `++size_` followed by a `--size_` gives back `size_` with
or without a wrap.)
-/

namespace SLL

/-! ## Outcomes -/

/-- Outcome of running a piece of the program. -/
inductive Res (β : Type) where
  | ok (v : β)
  | ub
  | timeout
deriving DecidableEq

/-! ## Nodes and memory -/

/-- The struct `Node`: a value and the pointer to the next node. -/
structure Node (α : Type) where
  value : α
  next_node : Option Nat
deriving DecidableEq

/-- Node memory: cell `p` holds `some n` while a node lives at address `p`. -/
structure Mem (α : Type) where
  cells : List (Option (Node α))
deriving DecidableEq

variable {α : Type}

/-- The node stored at address `p`, if one lives there. -/
def Mem.read (m : Mem α) (p : Nat) : Option (Node α) :=
  m.cells[p]?.join

/-- Model of `new Node(...)`: the node is placed in a fresh cell, whose address is returned. -/
def Mem.new (m : Mem α) (n : Node α) : Mem α × Nat :=
  (⟨m.cells ++ [some n]⟩, m.cells.length)

/-- Model of the assignment `p->next_node = nx`. -/
def Mem.setNext (m : Mem α) (p : Nat) (nx : Option Nat) : Res (Mem α) :=
  match m.read p with
  | none => .ub
  | some n => .ok ⟨m.cells.set p (some ⟨n.value, nx⟩)⟩

/-- Model of `delete p` for a non-null `p`. -/
def Mem.delete (m : Mem α) (p : Nat) : Res (Mem α) :=
  match m.read p with
  | none => .ub
  | some _ => .ok ⟨m.cells.set p none⟩

/-! ## Iterators -/

/-- The class `BasicIterator`: its only field is `node_`. -/
structure BasicIterator where
  node_ : Option Nat
deriving DecidableEq

/-- Iterator `operator==`: the same node, or both null. -/
def BasicIterator.eq (a b : BasicIterator) : Bool :=
  if a.node_ = b.node_ then true else false

/-- Iterator `operator!=`. -/
def BasicIterator.ne (a b : BasicIterator) : Bool :=
  !(a.eq b)

/-- Prefix `operator++`: asserts `node_ != nullptr`, then follows `next_node`. -/
def BasicIterator.incr (m : Mem α) (it : BasicIterator) : Res BasicIterator :=
  match it.node_ with
  | none => .ub
  | some p =>
    match m.read p with
    | none => .ub
    | some n => .ok ⟨n.next_node⟩

/-- Dereference `operator*`: asserts `node_ != nullptr`, then reads `value`. -/
def BasicIterator.deref (m : Mem α) (it : BasicIterator) : Res α :=
  match it.node_ with
  | none => .ub
  | some p =>
    match m.read p with
    | none => .ub
    | some n => .ok n.value

/-- Model of the standard `std::advance(it, n)` on a forward iterator: `n` increments
(`n` is a node count, so it fits the signed distance type). -/
def advance (m : Mem α) (it : BasicIterator) : Nat → Res BasicIterator
  | 0 => .ok it
  | n + 1 =>
    match it.incr m with
    | .ok it1 => advance m it1 n
    | .ub => .ub
    | .timeout => .timeout

/-! ## The list object -/

/-- The class `SingleLinkedList`: `head_` is the address of the cell that holds the
sentinel node of this object, `size_` is the cached element count. -/
structure SingleLinkedList where
  head_ : Nat
  size_ : Nat
deriving DecidableEq

/-- Largest value of `size_t`. -/
def SIZE_MAX : Nat := 2 ^ 64 - 1

/-- Model of `--size_` on a `size_t`. -/
def decr (s : Nat) : Nat :=
  if s = 0 then SIZE_MAX else s - 1

namespace SingleLinkedList

/-- Member `before_begin`: an iterator to the sentinel. -/
def before_begin (l : SingleLinkedList) : BasicIterator :=
  ⟨some l.head_⟩

/-- Member `cbefore_begin`. -/
def cbefore_begin (l : SingleLinkedList) : BasicIterator :=
  ⟨some l.head_⟩

/-- Member `begin`: an iterator holding `head_.next_node`. -/
def begin (m : Mem α) (l : SingleLinkedList) : Res BasicIterator :=
  match m.read l.head_ with
  | none => .ub
  | some h => .ok ⟨h.next_node⟩

/-- Member `end`: `begin()` advanced `size_` times. -/
def end_ (m : Mem α) (l : SingleLinkedList) : Res BasicIterator :=
  match l.begin m with
  | .ok it => advance m it l.size_
  | .ub => .ub
  | .timeout => .timeout

/-- Member `cbegin`. -/
def cbegin (m : Mem α) (l : SingleLinkedList) : Res BasicIterator :=
  l.begin m

/-- Member `cend`. -/
def cend (m : Mem α) (l : SingleLinkedList) : Res BasicIterator :=
  l.end_ m

/-- Member `GetSize`. -/
def GetSize (l : SingleLinkedList) : Nat :=
  l.size_

/-- Member `IsEmpty`. -/
def IsEmpty (l : SingleLinkedList) : Bool :=
  if l.size_ > 0 then false else true

/-- Member `InsertAfter(pos, value)`.  `++size_` is `+ 1`: see the note on `size_` in the
header. -/
def InsertAfter (m : Mem α) (l : SingleLinkedList) (pos : BasicIterator) (value : α) :
    Res (Mem α × SingleLinkedList × BasicIterator) :=
  match pos.node_ with
  | none => .ub
  | some p =>
    match m.read p with
    | none => .ub
    | some pn =>
      let (m1, new_node) := m.new ⟨value, pn.next_node⟩
      match m1.setNext p (some new_node) with
      | .ok m2 => .ok (m2, ⟨l.head_, l.size_ + 1⟩, ⟨some new_node⟩)
      | .ub => .ub
      | .timeout => .timeout

/-- Member `PopFront`. -/
def PopFront (m : Mem α) (l : SingleLinkedList) : Res (Mem α × SingleLinkedList) :=
  if !l.IsEmpty then
    match m.read l.head_ with
    | none => .ub
    | some h =>
      match h.next_node with
      | none => .ub
      | some front_ptr =>
        match m.read front_ptr with
        | none => .ub
        | some fn =>
          match m.setNext l.head_ fn.next_node with
          | .ok m1 =>
            match m1.delete front_ptr with
            | .ok m2 => .ok (m2, ⟨l.head_, decr l.size_⟩)
            | .ub => .ub
            | .timeout => .timeout
          | .ub => .ub
          | .timeout => .timeout
  else .ok (m, l)

/-- Member `EraseAfter(pos)`. -/
def EraseAfter (m : Mem α) (l : SingleLinkedList) (pos : BasicIterator) :
    Res (Mem α × SingleLinkedList × BasicIterator) :=
  match pos.node_ with
  | none => .ub
  | some p =>
    match m.read p with
    | none => .ub
    | some pn =>
      match pn.next_node with
      | none => .ub
      | some delete_ptr =>
        match m.read delete_ptr with
        | none => .ub
        | some dn =>
          match m.setNext p dn.next_node with
          | .ok m1 =>
            match m1.delete delete_ptr with
            | .ok m2 =>
              match m2.read p with
              | none => .ub
              | some pn2 => .ok (m2, ⟨l.head_, decr l.size_⟩, ⟨pn2.next_node⟩)
            | .ub => .ub
            | .timeout => .timeout
          | .ub => .ub
          | .timeout => .timeout

/-- Member `PushFront(value)`.  `++size_` is `+ 1`: see the note on `size_` in the header. -/
def PushFront (m : Mem α) (l : SingleLinkedList) (value : α) :
    Res (Mem α × SingleLinkedList) :=
  match m.read l.head_ with
  | none => .ub
  | some h =>
    let (m1, p) := m.new ⟨value, h.next_node⟩
    match m1.setNext l.head_ (some p) with
    | .ok m2 => .ok (m2, ⟨l.head_, l.size_ + 1⟩)
    | .ub => .ub
    | .timeout => .timeout

/-- Member `Clear`, the loop: one iteration for each unit of `size_`.  The loop
condition is `!IsEmpty()`, that is `size_ > 0`, and the body decrements `size_`, so
the recursion runs on `size_` itself. -/
def ClearLoop (m : Mem α) (head : Nat) : Nat → Res (Mem α)
  | 0 => .ok m
  | size + 1 =>
    match m.read head with
    | none => .ub
    | some h =>
      match h.next_node with
      | none => .ub
      | some first =>
        match m.read first with
        | none => .ub
        | some fn =>
          match m.delete first with
          | .ok m1 =>
            match m1.setNext head fn.next_node with
            | .ok m2 => ClearLoop m2 head size
            | .ub => .ub
            | .timeout => .timeout
          | .ub => .ub
          | .timeout => .timeout

/-- Member `Clear`: the loop, then `size_ = 0`. -/
def Clear (m : Mem α) (l : SingleLinkedList) : Res (Mem α × SingleLinkedList) :=
  match ClearLoop m l.head_ l.size_ with
  | .ok m1 => .ok (m1, ⟨l.head_, 0⟩)
  | .ub => .ub
  | .timeout => .timeout

/-- Member `swap`: exchanges `head_.next_node` and `size_` of the two objects. -/
def swap (m : Mem α) (l other : SingleLinkedList) :
    Res (Mem α × SingleLinkedList × SingleLinkedList) :=
  match m.read l.head_, m.read other.head_ with
  | some h, some oh =>
    match m.setNext l.head_ oh.next_node with
    | .ok m1 =>
      match m1.setNext other.head_ h.next_node with
      | .ok m2 => .ok (m2, ⟨l.head_, other.size_⟩, ⟨other.head_, l.size_⟩)
      | .ub => .ub
      | .timeout => .timeout
    | .ub => .ub
    | .timeout => .timeout
  | _, _ => .ub

/-- The destructor: `Clear()`, after which the storage of the object, and with it
the cell of `head_`, is given back. -/
def dtor (m : Mem α) (l : SingleLinkedList) : Res (Mem α) :=
  match l.Clear m with
  | .ok (m1, _) => m1.delete l.head_
  | .ub => .ub
  | .timeout => .timeout

/-- The default constructor: `head_(*(new Node()))`, `size_(0)`.  The node made by
`new` is copied into `head_` and never deleted. -/
def ctor_default [Inhabited α] (m : Mem α) : Mem α × SingleLinkedList :=
  let (m1, _) := m.new ⟨default, none⟩
  let (m2, head) := m1.new ⟨default, none⟩
  (m2, ⟨head, 0⟩)

/-- The loop of the initializer-list constructor.  `prev` is the address of the node
whose `next_node` field `prev_ptr` points to. -/
def initLoop (m : Mem α) (prev : Nat) : List α → Res (Mem α)
  | [] => .ok m
  | value :: values =>
    let (m1, node_ptr) := m.new ⟨value, none⟩
    match m1.setNext prev (some node_ptr) with
    | .ok m2 => initLoop m2 node_ptr values
    | .ub => .ub
    | .timeout => .timeout

/-- The constructor from `std::initializer_list`: `head_` and `size_` start from
their default member initializers, the loop links one node per value, and
`size_ = values.size()`. -/
def ctor_init [Inhabited α] (m : Mem α) (values : List α) :
    Res (Mem α × SingleLinkedList) :=
  let (m0, head) := m.new ⟨default, none⟩
  match initLoop m0 head values with
  | .ok m1 => .ok (m1, ⟨head, values.length⟩)
  | .ub => .ub
  | .timeout => .timeout

/-- The range-for loop of the copy constructor, from iterator `b` until it equals
`e`; `prev` is the address of the node whose `next_node` field `prev_ptr` points to. -/
def copyLoop (e : BasicIterator) : Nat → Mem α → BasicIterator → Nat → Res (Mem α)
  | fuel, m, b, prev =>
    if b.ne e then
      match fuel with
      | 0 => .timeout
      | fuel + 1 =>
        match b.deref m with
        | .ok node_ptr =>
          let (m1, copy_node_ptr) := m.new ⟨node_ptr, none⟩
          match m1.setNext prev (some copy_node_ptr) with
          | .ok m2 =>
            match b.incr m2 with
            | .ok b1 => copyLoop e fuel m2 b1 copy_node_ptr
            | .ub => .ub
            | .timeout => .timeout
          | .ub => .ub
          | .timeout => .timeout
        | .ub => .ub
        | .timeout => .timeout
    else .ok m

/-- The copy constructor. -/
def ctor_copy [Inhabited α] (fuel : Nat) (m : Mem α) (other : SingleLinkedList) :
    Res (Mem α × SingleLinkedList) :=
  let (m0, head) := m.new ⟨default, none⟩
  let this : SingleLinkedList := ⟨head, 0⟩
  match m0.read this.head_ with
  | none => .ub
  | some h =>
    if this.size_ = 0 ∧ h.next_node = none then
      let (m1, tmp) := ctor_default m0
      match other.begin m1, other.end_ m1 with
      | .ok b, .ok e =>
        match copyLoop e fuel m1 b tmp.head_ with
        | .ok m2 =>
          let tmp1 : SingleLinkedList := ⟨tmp.head_, other.size_⟩
          match this.swap m2 tmp1 with
          | .ok (m3, this1, tmp2) =>
            match tmp2.dtor m3 with
            | .ok m4 => .ok (m4, this1)
            | .ub => .ub
            | .timeout => .timeout
          | .ub => .ub
          | .timeout => .timeout
        | .ub => .ub
        | .timeout => .timeout
      | .timeout, _ => .timeout
      | _, .timeout => .timeout
      | _, _ => .ub
    else .ub

/-- Copy assignment `operator=`: for distinct objects, copy `other`, swap with the
copy and destroy it. -/
def assign [Inhabited α] (fuel : Nat) (m : Mem α) (l other : SingleLinkedList) :
    Res (Mem α × SingleLinkedList) :=
  if l.head_ ≠ other.head_ then
    match ctor_copy fuel m other with
    | .ok (m1, other_copy) =>
      match l.swap m1 other_copy with
      | .ok (m2, l1, other_copy1) =>
        match other_copy1.dtor m2 with
        | .ok m3 => .ok (m3, l1)
        | .ub => .ub
        | .timeout => .timeout
      | .ub => .ub
      | .timeout => .timeout
    | .ub => .ub
    | .timeout => .timeout
  else .ok (m, l)

end SingleLinkedList

/-- The free function `swap(lhs, rhs)`. -/
def swap (m : Mem α) (lhs rhs : SingleLinkedList) :
    Res (Mem α × SingleLinkedList × SingleLinkedList) :=
  lhs.swap m rhs

/-- Model of the standard three-iterator `std::equal(first1, last1, first2)`:
`for (; first1 != last1; ++first1, ++first2) if (!(*first1 == *first2)) return false;`
and `return true` after the loop.  The range behind `first2` has no end of its own. -/
def std_equal [DecidableEq α] (m : Mem α) (last1 : BasicIterator) :
    Nat → BasicIterator → BasicIterator → Res Bool
  | fuel, first1, first2 =>
    if first1.ne last1 then
      match fuel with
      | 0 => .timeout
      | fuel + 1 =>
        match first1.deref m, first2.deref m with
        | .ok a, .ok b =>
          if a = b then
            match first1.incr m, first2.incr m with
            | .ok n1, .ok n2 => std_equal m last1 fuel n1 n2
            | .timeout, _ => .timeout
            | _, .timeout => .timeout
            | _, _ => .ub
          else .ok false
        | .timeout, _ => .timeout
        | _, .timeout => .timeout
        | _, _ => .ub
    else .ok true

/-- List `operator==`. -/
def operator_eq [DecidableEq α] (fuel : Nat) (m : Mem α) (lhs rhs : SingleLinkedList) :
    Res Bool :=
  match lhs.begin m, lhs.end_ m, rhs.begin m with
  | .ok b1, .ok e1, .ok b2 => std_equal m e1 fuel b1 b2
  | _, _, _ => .ub

/-- List `operator!=`. -/
def operator_ne [DecidableEq α] (fuel : Nat) (m : Mem α) (lhs rhs : SingleLinkedList) :
    Res Bool :=
  match operator_eq fuel m lhs rhs with
  | .ok r => .ok (!r)
  | .ub => .ub
  | .timeout => .timeout

/-- A client traversal: `for (it = first; it != last; ++it) out.push_back(*it);`. -/
def traverse (m : Mem α) (last : BasicIterator) : Nat → BasicIterator → Res (List α)
  | fuel, it =>
    if it.ne last then
      match fuel with
      | 0 => .timeout
      | fuel + 1 =>
        match it.deref m, it.incr m with
        | .ok v, .ok it1 =>
          match traverse m last fuel it1 with
          | .ok vs => .ok (v :: vs)
          | .ub => .ub
          | .timeout => .timeout
        | _, _ => .ub
    else .ok []

/-! ## Ordering operators -/

/-- Model of the standard `std::lexicographical_compare(first1, last1, first2, last2)`:
`for (; first1 != last1 && first2 != last2; ++first1, ++first2)` with the body
`if (*first1 < *first2) return true; if (*first2 < *first1) return false;`, and
`return first1 == last1 && first2 != last2` after the loop.  The `<` of the element
type is the `<` of `α`. -/
def std_lexicographical_compare [LT α] [∀ a b : α, Decidable (a < b)] (m : Mem α)
    (last1 last2 : BasicIterator) : Nat → BasicIterator → BasicIterator → Res Bool
  | fuel, first1, first2 =>
    if first1.ne last1 && first2.ne last2 then
      match fuel with
      | 0 => .timeout
      | fuel + 1 =>
        match first1.deref m, first2.deref m with
        | .ok a, .ok b =>
          if a < b then .ok true
          else if b < a then .ok false
          else
            match first1.incr m, first2.incr m with
            | .ok n1, .ok n2 => std_lexicographical_compare m last1 last2 fuel n1 n2
            | _, _ => .ub
        | _, _ => .ub
    else .ok (first1.eq last1 && first2.ne last2)

/-- List `operator<`. -/
def operator_lt [LT α] [∀ a b : α, Decidable (a < b)] (fuel : Nat) (m : Mem α)
    (lhs rhs : SingleLinkedList) : Res Bool :=
  match lhs.cbegin m, lhs.cend m, rhs.cbegin m, rhs.cend m with
  | .ok b1, .ok e1, .ok b2, .ok e2 => std_lexicographical_compare m e1 e2 fuel b1 b2
  | _, _, _, _ => .ub

/-- List `operator>`. -/
def operator_gt [LT α] [∀ a b : α, Decidable (a < b)] (fuel : Nat) (m : Mem α)
    (lhs rhs : SingleLinkedList) : Res Bool :=
  match rhs.cbegin m, rhs.cend m, lhs.cbegin m, lhs.cend m with
  | .ok b1, .ok e1, .ok b2, .ok e2 => std_lexicographical_compare m e1 e2 fuel b1 b2
  | _, _, _, _ => .ub

/-- List `operator<=`: `!(lhs > rhs)`. -/
def operator_le [LT α] [∀ a b : α, Decidable (a < b)] (fuel : Nat) (m : Mem α)
    (lhs rhs : SingleLinkedList) : Res Bool :=
  match operator_gt fuel m lhs rhs with
  | .ok r => .ok (!r)
  | .ub => .ub
  | .timeout => .timeout

/-- List `operator>=`: `!(lhs < rhs)`. -/
def operator_ge [LT α] [∀ a b : α, Decidable (a < b)] (fuel : Nat) (m : Mem α)
    (lhs rhs : SingleLinkedList) : Res Bool :=
  match operator_lt fuel m lhs rhs with
  | .ok r => .ok (!r)
  | .ub => .ub
  | .timeout => .timeout

/-! ## The loop of Clear, one iteration at a time -/

/-- One iteration of the loop of `Clear`: `next = head_.next_node->next_node`,
`delete head_.next_node`, `--size_`, `head_.next_node = next`. -/
def ClearBody (m : Mem α) (l : SingleLinkedList) : Res (Mem α × SingleLinkedList) :=
  match m.read l.head_ with
  | none => .ub
  | some h =>
    match h.next_node with
    | none => .ub
    | some first =>
      match m.read first with
      | none => .ub
      | some fn =>
        match m.delete first with
        | .ok m1 =>
          match m1.setNext l.head_ fn.next_node with
          | .ok m2 => .ok (m2, ⟨l.head_, decr l.size_⟩)
          | .ub => .ub
          | .timeout => .timeout
        | .ub => .ub
        | .timeout => .timeout

/-- The loop `while (!IsEmpty()) body` of `Clear`, counting its iterations. -/
def ClearWhile : Nat → Mem α → SingleLinkedList → Res (Mem α × SingleLinkedList × Nat)
  | fuel, m, l =>
    if !l.IsEmpty then
      match fuel with
      | 0 => .timeout
      | fuel + 1 =>
        match ClearBody m l with
        | .ok (m1, l1) =>
          match ClearWhile fuel m1 l1 with
          | .ok (m2, l2, iterations) => .ok (m2, l2, iterations + 1)
          | .ub => .ub
          | .timeout => .timeout
        | .ub => .ub
        | .timeout => .timeout
    else .ok (m, l, 0)

/-- The state after `k` iterations of the loop body of `Clear`. -/
def ClearSteps : Nat → Mem α → SingleLinkedList → Res (Mem α × SingleLinkedList)
  | 0, m, l => .ok (m, l)
  | k + 1, m, l =>
    match ClearBody m l with
    | .ok (m1, l1) => ClearSteps k m1 l1
    | .ub => .ub
    | .timeout => .timeout

/-! ## What a list object stands for -/

/-- The chain predicate: following `next_node` from the pointer `p` visits exactly the
nodes at the addresses `as`, which hold the values `xs`, and then reaches null. -/
def Chain (m : Mem α) : Option Nat → List Nat → List α → Prop
  | p, [], [] => p = none
  | p, a :: as, x :: xs =>
    p = some a ∧
      match m.read a with
      | some n => n.value = x ∧ Chain m n.next_node as xs
      | none => False
  | _, _ :: _, [] => False
  | _, [], _ :: _ => False

/-- The list object `l` has its sentinel alive in `m`, and the chain behind the
sentinel consists of the nodes `as` with the element sequence `xs`. -/
def Models (m : Mem α) (l : SingleLinkedList) (as : List Nat) (xs : List α) : Prop :=
  match m.read l.head_ with
  | some h => Chain m h.next_node as xs
  | none => False

/-- The size invariant: `size_` is the number of nodes behind the sentinel. -/
def SizeInv (m : Mem α) (l : SingleLinkedList) : Prop :=
  ∃ as xs, Models m l as xs ∧ l.size_ = as.length

/-- Lexicographic comparison of two sequences, in the words of the specification: the
first differing element decides, and a proper prefix is less than the longer
sequence. -/
def lexLess [LT α] [∀ a b : α, Decidable (a < b)] : List α → List α → Bool
  | [], [] => false
  | [], _ :: _ => true
  | _ :: _, [] => false
  | x :: xs, y :: ys => if x < y then true else if y < x then false else lexLess xs ys

/-- Decision procedure for `Chain` on concrete memories. -/
instance Chain.instDecidable [DecidableEq α] (m : Mem α) :
    ∀ (p : Option Nat) (as : List Nat) (xs : List α), Decidable (Chain m p as xs)
  | p, [], [] => by unfold Chain; infer_instance
  | p, a :: as, x :: xs => by
    unfold Chain
    cases h : m.read a with
    | none => exact isFalse (by simp)
    | some n =>
      have := Chain.instDecidable m n.next_node as xs
      simp only
      infer_instance
  | _, _ :: _, [] => by unfold Chain; infer_instance
  | _, [], _ :: _ => by unfold Chain; infer_instance

/-- Decision procedure for `Models` on concrete memories. -/
instance Models.instDecidable [DecidableEq α] (m : Mem α) (l : SingleLinkedList)
    (as : List Nat) (xs : List α) : Decidable (Models m l as xs) := by
  unfold Models
  cases h : m.read l.head_ with
  | none => exact isFalse (by simp)
  | some n => simp only; infer_instance


/-! ## Concrete states -/

/-- The memory left by `SingleLinkedList<int>{1, 2, 3}` built in an empty memory:
cell 0 is the sentinel, cells 1 to 3 are the nodes. -/
def mem123 : Mem Nat :=
  ⟨[some ⟨0, some 1⟩, some ⟨1, some 2⟩, some ⟨2, some 3⟩, some ⟨3, none⟩]⟩

/-- The list object of `{1, 2, 3}` in `mem123`. -/
def list123 : SingleLinkedList := ⟨0, 3⟩

/-- The memory after a second list `{1, 2}` is built next to `{1, 2, 3}`: cell 4 is its
sentinel, cells 5 and 6 are its nodes. -/
def mem123_12 : Mem Nat :=
  ⟨[some ⟨0, some 1⟩, some ⟨1, some 2⟩, some ⟨2, some 3⟩, some ⟨3, none⟩,
    some ⟨0, some 5⟩, some ⟨1, some 6⟩, some ⟨2, none⟩]⟩

/-- The list object of `{1, 2}` in `mem123_12`. -/
def list12 : SingleLinkedList := ⟨4, 2⟩

/-- The memory after three more lists are built next to `{1, 2, 3}` and `{1, 2}`:
`{1, 3}` (sentinel 7, nodes 8 and 9), the empty list (sentinel 10) and `{1}`
(sentinel 11, node 12). -/
def memFive : Mem Nat :=
  ⟨[some ⟨0, some 1⟩, some ⟨1, some 2⟩, some ⟨2, some 3⟩, some ⟨3, none⟩,
    some ⟨0, some 5⟩, some ⟨1, some 6⟩, some ⟨2, none⟩,
    some ⟨0, some 8⟩, some ⟨1, some 9⟩, some ⟨3, none⟩,
    some ⟨0, none⟩,
    some ⟨0, some 12⟩, some ⟨1, none⟩]⟩

/-- The list object of `{1, 3}` in `memFive`. -/
def list13 : SingleLinkedList := ⟨7, 2⟩

/-- The list object of the empty list in `memFive`. -/
def listEmpty : SingleLinkedList := ⟨10, 0⟩

/-- The list object of `{1}` in `memFive`. -/
def list1 : SingleLinkedList := ⟨11, 1⟩

/-! ## Memory lemmas -/

theorem Mem.read_lt {m : Mem α} {p : Nat} {n : Node α} (h : m.read p = some n) :
    p < m.cells.length := by
  unfold Mem.read at h
  by_contra hlt
  rw [List.getElem?_eq_none (by omega)] at h
  simp at h

theorem Mem.read_new_old (m : Mem α) (n : Node α) {p : Nat} (hp : p < m.cells.length) :
    (m.new n).1.read p = m.read p := by
  simp [Mem.read, Mem.new, List.getElem?_append_left hp]

theorem Mem.read_new_self (m : Mem α) (n : Node α) :
    (m.new n).1.read m.cells.length = some n := by
  simp [Mem.read, Mem.new]

theorem Mem.read_set (m : Mem α) (p q : Nat) (c : Option (Node α)) :
    (Mem.mk (m.cells.set p c)).read q =
      if p = q ∧ p < m.cells.length then c else m.read q := by
  unfold Mem.read
  simp only [List.getElem?_set]
  by_cases hpq : p = q
  · subst hpq
    by_cases hlt : p < m.cells.length
    · simp [hlt]
    · simp [hlt, List.getElem?_eq_none (Nat.le_of_not_lt hlt)]
  · simp [hpq]

theorem Mem.setNext_ok {m : Mem α} {p : Nat} {n : Node α} (h : m.read p = some n)
    (nx : Option Nat) :
    m.setNext p nx = .ok ⟨m.cells.set p (some ⟨n.value, nx⟩)⟩ := by
  simp [Mem.setNext, h]

theorem Mem.delete_ok {m : Mem α} {p : Nat} {n : Node α} (h : m.read p = some n) :
    m.delete p = .ok ⟨m.cells.set p none⟩ := by
  simp [Mem.delete, h]

/-! ## Chain lemmas -/

theorem Chain.nil_iff (m : Mem α) (p : Option Nat) : Chain m p [] [] ↔ p = none := by
  simp [Chain]

theorem Chain.cons_iff (m : Mem α) (p : Option Nat) (a : Nat) (as : List Nat) (x : α)
    (xs : List α) :
    Chain m p (a :: as) (x :: xs) ↔
      p = some a ∧ ∃ nx, m.read a = some ⟨x, nx⟩ ∧ Chain m nx as xs := by
  rw [Chain]
  cases h : m.read a with
  | none => simp
  | some n =>
    cases n with
    | mk v nx =>
      simp only [Option.some.injEq, Node.mk.injEq]
      constructor
      · rintro ⟨h1, h2, h3⟩
        exact ⟨h1, nx, ⟨h2, rfl⟩, h3⟩
      · rintro ⟨h1, nx2, ⟨h2, h3⟩, h4⟩
        subst h3
        exact ⟨h1, h2, h4⟩

theorem Chain.nil_left {m : Mem α} {p : Option Nat} {xs : List α} (h : Chain m p [] xs) :
    xs = [] ∧ p = none := by
  cases xs with
  | nil => exact ⟨rfl, by simpa [Chain] using h⟩
  | cons x xs => simp [Chain] at h

theorem Chain.cons_left {m : Mem α} {p : Option Nat} {a : Nat} {as : List Nat} {xs : List α}
    (h : Chain m p (a :: as) xs) :
    ∃ x nx ys, xs = x :: ys ∧ p = some a ∧ m.read a = some ⟨x, nx⟩ ∧ Chain m nx as ys := by
  cases xs with
  | nil => simp [Chain] at h
  | cons x ys =>
    rw [Chain.cons_iff] at h
    obtain ⟨h1, nx, h2, h3⟩ := h
    exact ⟨x, nx, ys, rfl, h1, h2, h3⟩

theorem Chain.length_eq {m : Mem α} {p : Option Nat} {as : List Nat} {xs : List α}
    (h : Chain m p as xs) : as.length = xs.length := by
  induction as generalizing p xs with
  | nil => simp [(Chain.nil_left h).1]
  | cons a as ih =>
    obtain ⟨x, nx, ys, rfl, -, -, h3⟩ := Chain.cons_left h
    simp [ih h3]

/-- A chain only depends on the cells of its own nodes. -/
theorem Chain.frame {m m2 : Mem α} {p : Option Nat} {as : List Nat} {xs : List α}
    (h : Chain m p as xs) (hf : ∀ a ∈ as, m2.read a = m.read a) : Chain m2 p as xs := by
  induction as generalizing p xs with
  | nil =>
    obtain ⟨rfl, rfl⟩ := Chain.nil_left h
    simp [Chain]
  | cons a as ih =>
    obtain ⟨x, nx, ys, rfl, h1, h2, h3⟩ := Chain.cons_left h
    rw [Chain.cons_iff]
    refine ⟨h1, nx, ?_, ih h3 (fun b hb => hf b (List.mem_cons_of_mem _ hb))⟩
    rw [hf a (List.mem_cons_self _ _), h2]

theorem Chain.lt_length {m : Mem α} {p : Option Nat} {as : List Nat} {xs : List α}
    (h : Chain m p as xs) : ∀ a ∈ as, a < m.cells.length := by
  induction as generalizing p xs with
  | nil => simp
  | cons a as ih =>
    obtain ⟨x, nx, ys, rfl, -, h2, h3⟩ := Chain.cons_left h
    intro b hb
    rcases List.mem_cons.1 hb with rfl | hb
    · exact Mem.read_lt h2
    · exact ih h3 b hb

/-- The chain behind a pointer is determined by the memory. -/
theorem Chain.unique {m : Mem α} {p : Option Nat} {as bs : List Nat} {xs ys : List α}
    (h1 : Chain m p as xs) (h2 : Chain m p bs ys) : as = bs ∧ xs = ys := by
  induction as generalizing p bs xs ys with
  | nil =>
    obtain ⟨rfl, rfl⟩ := Chain.nil_left h1
    cases bs with
    | nil => exact ⟨rfl, (Chain.nil_left h2).1.symm⟩
    | cons b bs =>
      obtain ⟨_, _, _, _, hp, _, _⟩ := Chain.cons_left h2
      cases hp
  | cons a as ih =>
    obtain ⟨x, nx, xs1, rfl, e1, r1, c1⟩ := Chain.cons_left h1
    cases bs with
    | nil =>
      obtain ⟨_, rfl⟩ := Chain.nil_left h2
      cases e1
    | cons b bs =>
      obtain ⟨y, ny, ys1, rfl, e2, r2, c2⟩ := Chain.cons_left h2
      rw [e1] at e2
      cases e2
      rw [r1] at r2
      cases r2
      obtain ⟨ha, hx⟩ := ih c1 c2
      exact ⟨by rw [ha], by rw [hx]⟩


/-! ## Iterators over a chain -/

theorem advance_chain {m : Mem α} {p : Option Nat} {as : List Nat} {xs : List α}
    (h : Chain m p as xs) : advance m ⟨p⟩ as.length = .ok ⟨none⟩ := by
  induction as generalizing p xs with
  | nil =>
    obtain ⟨-, rfl⟩ := Chain.nil_left h
    rfl
  | cons a as ih =>
    obtain ⟨x, nx, ys, rfl, rfl, h2, h3⟩ := Chain.cons_left h
    simp [advance, BasicIterator.incr, h2, ih h3]

theorem traverse_chain {m : Mem α} {p : Option Nat} {as : List Nat} {xs : List α}
    (h : Chain m p as xs) (k : Nat) :
    traverse m ⟨none⟩ (xs.length + k) ⟨p⟩ = .ok xs := by
  induction as generalizing p xs with
  | nil =>
    obtain ⟨rfl, rfl⟩ := Chain.nil_left h
    unfold traverse
    simp [BasicIterator.ne, BasicIterator.eq]
  | cons a as ih =>
    obtain ⟨x, nx, ys, rfl, rfl, h2, h3⟩ := Chain.cons_left h
    have e : (x :: ys).length + k = (ys.length + k) + 1 := by simp; omega
    rw [e]
    unfold traverse
    simp [BasicIterator.ne, BasicIterator.eq, BasicIterator.deref, BasicIterator.incr, h2,
      ih h3]

/-! ## The initializer-list constructor -/

theorem initLoop_spec (values : List α) : ∀ (m : Mem α) (prev : Nat) (pv : α),
    m.read prev = some ⟨pv, none⟩ →
    ∃ m1 nx, SingleLinkedList.initLoop m prev values = .ok m1 ∧
      m1.cells.length = m.cells.length + values.length ∧
      (∀ q, q < m.cells.length → q ≠ prev → m1.read q = m.read q) ∧
      m1.read prev = some ⟨pv, nx⟩ ∧
      Chain m1 nx (List.range' m.cells.length values.length) values := by
  induction values with
  | nil =>
    intro m prev pv hp
    exact ⟨m, none, rfl, rfl, fun _ _ _ => rfl, hp, by simp [Chain]⟩
  | cons v vs ih =>
    intro m prev pv hp
    have hlt := Mem.read_lt hp
    have hp1 : (m.new ⟨v, none⟩).1.read prev = some ⟨pv, none⟩ := by
      rw [Mem.read_new_old m _ hlt, hp]
    have hne : prev ≠ m.cells.length := Nat.ne_of_lt hlt
    have hlen1 : (m.new ⟨v, none⟩).1.cells.length = m.cells.length + 1 := by
      simp [Mem.new]
    have hnew : (Mem.mk ((m.new ⟨v, none⟩).1.cells.set prev
        (some ⟨pv, some m.cells.length⟩)) : Mem α).read m.cells.length = some ⟨v, none⟩ := by
      rw [Mem.read_set, if_neg (fun hc => hne hc.1), Mem.read_new_self]
    obtain ⟨m1, nx, h1, h2, h3, h4, h5⟩ := ih _ m.cells.length v hnew
    simp only [List.length_set, hlen1] at h2 h3 h5
    refine ⟨m1, some m.cells.length, ?_, ?_, ?_, ?_, ?_⟩
    · simp only [SingleLinkedList.initLoop]
      rw [Mem.setNext_ok hp1]
      simpa [Mem.new] using h1
    · simp [h2]; omega
    · intro q hq hqp
      rw [h3 q (by omega) (Nat.ne_of_lt hq), Mem.read_set, if_neg (fun hc => hqp hc.1.symm),
        Mem.read_new_old m _ hq]
    · rw [h3 prev (by omega) hne, Mem.read_set]
      simp [hlen1]; omega
    · rw [List.length_cons, List.range'_succ, Chain.cons_iff]
      exact ⟨rfl, nx, h4, h5⟩

theorem ctor_init_models [Inhabited α] (m : Mem α) (values : List α) :
    ∃ m1, SingleLinkedList.ctor_init m values = .ok (m1, ⟨m.cells.length, values.length⟩) ∧
      m1.cells.length = m.cells.length + 1 + values.length ∧
      (∀ q, q < m.cells.length → m1.read q = m.read q) ∧
      Models m1 ⟨m.cells.length, values.length⟩
        (List.range' (m.cells.length + 1) values.length) values := by
  obtain ⟨m1, nx, h1, h2, h3, h4, h5⟩ :=
    initLoop_spec values (m.new ⟨default, none⟩).1 m.cells.length default
      (Mem.read_new_self m _)
  have hlen : (m.new (⟨default, none⟩ : Node α)).1.cells.length = m.cells.length + 1 := by
    simp [Mem.new]
  rw [hlen] at h2 h3 h5
  refine ⟨m1, ?_, h2, ?_, ?_⟩
  · simp only [SingleLinkedList.ctor_init]
    simp only [Mem.new] at h1
    simp [Mem.new, h1]
  · intro q hq
    rw [h3 q (by omega) (Nat.ne_of_lt hq), Mem.read_new_old m _ hq]
  · simp only [Models, h4]
    exact h5

/-- C1: for every sequence S (and every memory the constructor starts from), the
initializer-list constructor returns a list whose traversal from begin() by repeated
increment until end() yields exactly S in order, whose GetSize() is the length of S,
and which is empty exactly when S is empty. -/
theorem ctor_init_traverse [Inhabited α] (m : Mem α) (S : List α) (k : Nat) :
    ∃ m1 l b e, SingleLinkedList.ctor_init m S = .ok (m1, l) ∧ l.begin m1 = .ok b ∧ l.end_ m1 = .ok e ∧
      traverse m1 e (S.length + k) b = .ok S ∧ l.GetSize = S.length ∧
      (l.IsEmpty = true ↔ S = []) := by
  obtain ⟨m1, h1, -, -, h4⟩ := ctor_init_models m S
  simp only [Models] at h4
  cases hr : m1.read m.cells.length with
  | none => simp [hr] at h4
  | some h =>
    simp only [hr] at h4
    have hadv := advance_chain h4
    simp only [List.length_range'] at hadv
    refine ⟨m1, _, ⟨h.next_node⟩, ⟨none⟩, h1, ?_, ?_, traverse_chain h4 k, rfl, ?_⟩
    · simp [SingleLinkedList.begin, hr]
    · simp [SingleLinkedList.end_, SingleLinkedList.begin, hr, hadv]
    · cases S <;> simp [SingleLinkedList.IsEmpty]


/-! ## No sharing inside a chain -/

/-- Every node of a chain starts a chain of its own, the rest of the first one. -/
theorem Chain.suffix {m : Mem α} {a : Nat} {post : List Nat} (pre : List Nat) :
    ∀ {p : Option Nat} {ys : List α}, Chain m p (pre ++ a :: post) ys →
      Chain m (some a) (a :: post) (ys.drop pre.length) := by
  induction pre with
  | nil =>
    intro p ys h
    obtain ⟨x, nx, zs, rfl, rfl, h2, h3⟩ := Chain.cons_left h
    simpa using h
  | cons b pre ih =>
    intro p ys h
    obtain ⟨x, nx, zs, rfl, rfl, h2, h3⟩ := Chain.cons_left h
    simpa using ih h3

/-- A node whose `next_node` starts a null-terminated chain is not on that chain. -/
theorem Chain.not_mem_of_read {m : Mem α} {nx : Option Nat} {as : List Nat} {xs : List α}
    {a : Nat} {x : α} (h : Chain m nx as xs) (hr : m.read a = some ⟨x, nx⟩) : a ∉ as := by
  intro hmem
  obtain ⟨pre, post, rfl⟩ := List.append_of_mem hmem
  have hs := Chain.suffix pre h
  obtain ⟨y, ny, zs, -, -, h2, h3⟩ := Chain.cons_left hs
  rw [hr] at h2
  cases h2
  have hu := (Chain.unique h h3).1
  have hl := congrArg List.length hu
  simp at hl
  omega

theorem Chain.nodup {m : Mem α} {p : Option Nat} {as : List Nat} {xs : List α}
    (h : Chain m p as xs) : as.Nodup := by
  induction as generalizing p xs with
  | nil => exact List.nodup_nil
  | cons a as ih =>
    obtain ⟨x, nx, ys, rfl, -, h2, h3⟩ := Chain.cons_left h
    exact List.nodup_cons.2 ⟨Chain.not_mem_of_read h3 h2, ih h3⟩

/-- A list object is a chain that starts at the sentinel. -/
theorem Models_iff (m : Mem α) (l : SingleLinkedList) (as : List Nat) (xs : List α) :
    Models m l as xs ↔ ∃ hv, Chain m (some l.head_) (l.head_ :: as) (hv :: xs) := by
  unfold Models
  constructor
  · intro h
    cases hr : m.read l.head_ with
    | none => simp [hr] at h
    | some n =>
      simp only [hr] at h
      exact ⟨n.value, (Chain.cons_iff _ _ _ _ _ _).2 ⟨rfl, n.next_node, hr, h⟩⟩
  · rintro ⟨hv, h⟩
    obtain ⟨-, nx, h2, h3⟩ := (Chain.cons_iff _ _ _ _ _ _).1 h
    simpa [h2] using h3

theorem Models.read_head {m : Mem α} {l : SingleLinkedList} {as : List Nat} {xs : List α}
    (h : Models m l as xs) : ∃ hn, m.read l.head_ = some hn ∧ Chain m hn.next_node as xs := by
  unfold Models at h
  cases hr : m.read l.head_ with
  | none => simp [hr] at h
  | some n => exact ⟨n, rfl, by simpa [hr] using h⟩

theorem Models.of_read {m : Mem α} {l : SingleLinkedList} {as : List Nat} {xs : List α}
    (hn : Node α) (hr : m.read l.head_ = some hn) (h : Chain m hn.next_node as xs) :
    Models m l as xs := by
  simpa [Models, hr] using h

theorem Models.cells_nodup {m : Mem α} {l : SingleLinkedList} {as : List Nat} {xs : List α}
    (h : Models m l as xs) : (l.head_ :: as).Nodup := by
  obtain ⟨hv, hc⟩ := (Models_iff _ _ _ _).1 h
  exact Chain.nodup hc

theorem Models.determined {m : Mem α} {l : SingleLinkedList} {as bs : List Nat} {xs ys : List α}
    (h1 : Models m l as xs) (h2 : Models m l bs ys) : as = bs ∧ xs = ys := by
  obtain ⟨n1, r1, c1⟩ := h1.read_head
  obtain ⟨n2, r2, c2⟩ := h2.read_head
  rw [r1] at r2
  cases r2
  exact Chain.unique c1 c2

/-! ## Linking a node into a chain, and unlinking one -/

theorem Chain.insert {m m1 : Mem α} {a new : Nat} {x v : α} {nx : Option Nat}
    {post : List Nat} (hr : m.read a = some ⟨x, nx⟩)
    (hold : ∀ q, q ≠ a → q ≠ new → m1.read q = m.read q)
    (ha : m1.read a = some ⟨x, some new⟩) (hn : m1.read new = some ⟨v, nx⟩) (pre : List Nat) :
    ∀ {p : Option Nat} {ys : List α}, Chain m p (pre ++ a :: post) ys →
      new ∉ pre ++ a :: post →
      Chain m1 p (pre ++ a :: new :: post)
        (ys.take (pre.length + 1) ++ v :: ys.drop (pre.length + 1)) := by
  induction pre with
  | nil =>
    intro p ys h hnew
    have hnd := Chain.nodup h
    obtain ⟨x1, nx1, zs, rfl, rfl, h2, h3⟩ := Chain.cons_left h
    rw [hr] at h2
    cases h2
    simp only [List.nil_append, List.length_nil, Nat.zero_add, List.take_succ_cons,
      List.take_zero, List.drop_succ_cons, List.drop_zero, List.singleton_append]
    rw [Chain.cons_iff]
    refine ⟨rfl, some new, ha, ?_⟩
    rw [Chain.cons_iff]
    refine ⟨rfl, nx, hn, Chain.frame h3 ?_⟩
    intro b hb
    simp only [List.nil_append, List.nodup_cons, List.mem_cons, not_or] at hnd hnew
    exact hold b (fun e => hnd.1 (e ▸ hb)) (fun e => hnew.2 (e ▸ hb))
  | cons b pre ih =>
    intro p ys h hnew
    have hnd := Chain.nodup h
    obtain ⟨x1, nx1, zs, rfl, rfl, h2, h3⟩ := Chain.cons_left h
    simp only [List.cons_append, List.nodup_cons, List.mem_append, List.mem_cons,
      not_or] at hnd hnew
    simp only [List.cons_append, List.length_cons, List.take_succ_cons, List.drop_succ_cons]
    rw [Chain.cons_iff]
    refine ⟨rfl, nx1, ?_, ih h3 ?_⟩
    · rw [hold b (fun e => hnd.1.2.1 e) (fun e => hnew.1 e.symm), h2]
    · simp only [List.mem_append, List.mem_cons, not_or]
      exact ⟨hnew.2.1, hnew.2.2⟩

theorem Chain.erase {m m1 : Mem α} {a d : Nat} {x y : α} {ny : Option Nat}
    {post : List Nat} (hra : m.read a = some ⟨x, some d⟩) (hrd : m.read d = some ⟨y, ny⟩)
    (hold : ∀ q, q ≠ a → q ≠ d → m1.read q = m.read q)
    (ha : m1.read a = some ⟨x, ny⟩) (pre : List Nat) :
    ∀ {p : Option Nat} {ys : List α}, Chain m p (pre ++ a :: d :: post) ys →
      Chain m1 p (pre ++ a :: post) (ys.eraseIdx (pre.length + 1)) := by
  induction pre with
  | nil =>
    intro p ys h
    have hnd := Chain.nodup h
    obtain ⟨x1, nx1, zs, rfl, rfl, h2, h3⟩ := Chain.cons_left h
    obtain ⟨y1, ny1, ws, rfl, -, h4, h5⟩ := Chain.cons_left h3
    rw [hra] at h2
    cases h2
    rw [hrd] at h4
    cases h4
    simp only [List.nil_append, List.length_nil, Nat.zero_add, List.eraseIdx_cons_succ,
      List.eraseIdx_cons_zero]
    rw [Chain.cons_iff]
    refine ⟨rfl, ny, ha, Chain.frame h5 ?_⟩
    intro b hb
    simp only [List.nil_append, List.nodup_cons, List.mem_cons, not_or] at hnd
    exact hold b (fun e => hnd.1.2 (e ▸ hb)) (fun e => hnd.2.1 (e ▸ hb))
  | cons b pre ih =>
    intro p ys h
    have hnd := Chain.nodup h
    obtain ⟨x1, nx1, zs, rfl, rfl, h2, h3⟩ := Chain.cons_left h
    simp only [List.cons_append, List.nodup_cons, List.mem_append, List.mem_cons,
      not_or] at hnd
    simp only [List.cons_append, List.length_cons, List.eraseIdx_cons_succ]
    rw [Chain.cons_iff]
    refine ⟨rfl, nx1, ?_, ih h3⟩
    rw [hold b (fun e => hnd.1.2.1 e) (fun e => hnd.1.2.2.1 e), h2]


/-! ## The memory after each mutating operation -/

theorem Mem.read_append (m : Mem α) (c : Option (Node α)) (q : Nat) :
    (Mem.mk (m.cells ++ [c])).read q = if q = m.cells.length then c else m.read q := by
  unfold Mem.read
  by_cases hq : q = m.cells.length
  · subst hq
    simp
  · rw [if_neg hq]
    rcases Nat.lt_or_gt_of_ne hq with h | h
    · rw [List.getElem?_append_left h]
    · rw [List.getElem?_eq_none (by simp; omega), List.getElem?_eq_none (by omega)]

theorem InsertAfter_eval {m : Mem α} (l : SingleLinkedList) {a : Nat} {x : α}
    {nx : Option Nat} (v : α) (hr : m.read a = some ⟨x, nx⟩) :
    SingleLinkedList.InsertAfter m l ⟨some a⟩ v =
      .ok (Mem.mk ((m.cells ++ [some (Node.mk v nx)]).set a
          (some (Node.mk x (some m.cells.length)))),
        ⟨l.head_, l.size_ + 1⟩, ⟨some m.cells.length⟩) := by
  have hlt := Mem.read_lt hr
  have h1 : (Mem.mk (m.cells ++ [some ⟨v, nx⟩]) : Mem α).read a = some ⟨x, nx⟩ := by
    rw [Mem.read_append, if_neg (Nat.ne_of_lt hlt), hr]
  simp only [SingleLinkedList.InsertAfter, hr, Mem.new]
  rw [Mem.setNext_ok h1]

theorem EraseAfter_eval {m : Mem α} (l : SingleLinkedList) {a d : Nat} {x y : α}
    {ny : Option Nat} (hra : m.read a = some ⟨x, some d⟩) (hrd : m.read d = some ⟨y, ny⟩)
    (hne : a ≠ d) :
    SingleLinkedList.EraseAfter m l ⟨some a⟩ =
      .ok (Mem.mk ((m.cells.set a (some (Node.mk x ny))).set d none),
        ⟨l.head_, decr l.size_⟩, ⟨ny⟩) := by
  have hlta := Mem.read_lt hra
  have hltd := Mem.read_lt hrd
  have h1 : (Mem.mk (m.cells.set a (some ⟨x, ny⟩)) : Mem α).read d = some ⟨y, ny⟩ := by
    rw [Mem.read_set, if_neg (fun hc => hne hc.1), hrd]
  have h2 : (Mem.mk ((m.cells.set a (some ⟨x, ny⟩)).set d none) : Mem α).read a
      = some ⟨x, ny⟩ := by
    rw [Mem.read_set (Mem.mk (m.cells.set a (some ⟨x, ny⟩))), if_neg (fun hc => hne hc.1.symm),
      Mem.read_set, if_pos ⟨rfl, hlta⟩]
  simp only [SingleLinkedList.EraseAfter, hra, hrd]
  rw [Mem.setNext_ok hra]
  simp only []
  rw [Mem.delete_ok h1]
  simp only [h2]

theorem PushFront_eval {m : Mem α} (l : SingleLinkedList) {hn : Node α} (v : α)
    (hr : m.read l.head_ = some hn) :
    SingleLinkedList.PushFront m l v =
      .ok (Mem.mk ((m.cells ++ [some (Node.mk v hn.next_node)]).set l.head_
          (some (Node.mk hn.value (some m.cells.length)))),
        ⟨l.head_, l.size_ + 1⟩) := by
  have hlt := Mem.read_lt hr
  have h1 : (Mem.mk (m.cells ++ [some (Node.mk v hn.next_node)]) : Mem α).read l.head_
      = some hn := by
    rw [Mem.read_append, if_neg (Nat.ne_of_lt hlt), hr]
  simp only [SingleLinkedList.PushFront, hr, Mem.new]
  rw [Mem.setNext_ok h1]

theorem PopFront_eval {m : Mem α} {l : SingleLinkedList} {f : Nat} {hv y : α}
    {ny : Option Nat} (hs : 0 < l.size_) (hrh : m.read l.head_ = some ⟨hv, some f⟩)
    (hrf : m.read f = some ⟨y, ny⟩) (hne : l.head_ ≠ f) :
    SingleLinkedList.PopFront m l =
      .ok (Mem.mk ((m.cells.set l.head_ (some (Node.mk hv ny))).set f none),
        ⟨l.head_, decr l.size_⟩) := by
  have h1 : (Mem.mk (m.cells.set l.head_ (some ⟨hv, ny⟩)) : Mem α).read f = some ⟨y, ny⟩ := by
    rw [Mem.read_set, if_neg (fun hc => hne hc.1), hrf]
  simp only [SingleLinkedList.PopFront, SingleLinkedList.IsEmpty, hs, hrh, hrf]
  rw [Mem.setNext_ok hrh]
  simp only []
  rw [Mem.delete_ok h1]
  simp

/-! ## Positions in a list, by index -/

theorem decomp_of_index (cs : List Nat) (i : Nat) (hi : i < cs.length) :
    ∃ pre a post, cs = pre ++ a :: post ∧ pre.length = i :=
  ⟨cs.take i, cs[i], cs.drop (i + 1), by simp, by simp; omega⟩

theorem getElem?_decomp (pre post : List Nat) (a : Nat) :
    (pre ++ a :: post)[pre.length]? = some a := by
  rw [List.getElem?_append_right (Nat.le_refl _)]
  simp

theorem take_decomp (pre post : List Nat) (a : Nat) :
    (pre ++ a :: post).take (pre.length + 1) = pre ++ [a] := by
  induction pre with
  | nil => simp
  | cons b pre ih => simpa using ih

theorem drop_decomp (pre post : List Nat) (a : Nat) :
    (pre ++ a :: post).drop (pre.length + 1) = post := by
  induction pre with
  | nil => simp
  | cons b pre ih => simp [ih]

theorem Chain.head_eq {m : Mem α} {p : Option Nat} {as : List Nat} {xs : List α}
    (h : Chain m p as xs) : p = as.head? := by
  cases as with
  | nil => exact (Chain.nil_left h).2
  | cons a as =>
    obtain ⟨_, _, _, _, hp, _, _⟩ := Chain.cons_left h
    simpa using hp

/-- The node at position `i` of a list object (position 0 is the sentinel): its cell,
and the chain that follows it. -/
theorem Models.at_index {m : Mem α} {l : SingleLinkedList} {as : List Nat} {xs : List α}
    (hM : Models m l as xs) {i : Nat} (hi : i ≤ as.length) :
    ∃ pre a post x zs, l.head_ :: as = pre ++ a :: post ∧ pre.length = i ∧
      (l.head_ :: as)[i]? = some a ∧ pre ++ [a] = l.head_ :: as.take i ∧
      post = as.drop i ∧ m.read a = some ⟨x, as[i]?⟩ ∧ Chain m as[i]? post zs ∧
      zs = xs.drop i := by
  obtain ⟨hv, hc⟩ := (Models_iff _ _ _ _).1 hM
  obtain ⟨pre, a, post, hcs, hlen⟩ := decomp_of_index (l.head_ :: as) i (by simp; omega)
  rw [hcs] at hc
  have hs := Chain.suffix pre hc
  obtain ⟨x, nx, zs, hz, -, h2, h3⟩ := Chain.cons_left hs
  have e1 : pre ++ [a] = l.head_ :: as.take i := by
    have := congrArg (List.take (i + 1)) hcs
    rw [← hlen] at this ⊢
    rw [take_decomp] at this
    simpa using this.symm
  have e2 : post = as.drop i := by
    have := congrArg (List.drop (i + 1)) hcs
    rw [← hlen] at this ⊢
    rw [drop_decomp] at this
    simpa using this.symm
  have e3 : nx = as[i]? := by
    rw [Chain.head_eq h3, e2, List.head?_drop]
  have e4 : zs = xs.drop i := by
    have := congrArg (List.drop 1) hz
    rw [← hlen]
    simpa using this.symm
  subst e3
  refine ⟨pre, a, post, x, zs, hcs, hlen, ?_, e1, e2, h2, h3, e4⟩
  rw [hcs, ← hlen]
  exact getElem?_decomp pre post a

/-! ## InsertAfter and EraseAfter on a list object -/

/-- What InsertAfter does at position `i` of a list object (0 is the sentinel). -/
theorem InsertAfter_core (m : Mem α) (l : SingleLinkedList) (as : List Nat) (xs : List α)
    (i : Nat) (v : α) (hM : Models m l as xs) (hi : i ≤ as.length) :
    ∃ m1 l1 it, SingleLinkedList.InsertAfter m l ⟨(l.head_ :: as)[i]?⟩ v = .ok (m1, l1, it) ∧
      Models m1 l1 (as.take i ++ m.cells.length :: as.drop i) (xs.take i ++ v :: xs.drop i) ∧
      m.cells.length ∉ l.head_ :: as ∧
      l1.head_ = l.head_ ∧ l1.size_ = l.size_ + 1 ∧
      it.node_ = some m.cells.length ∧ it.deref m1 = .ok v ∧
      it.incr m1 = .ok ⟨as[i]?⟩ ∧
      BasicIterator.incr m ⟨(l.head_ :: as)[i]?⟩ = .ok ⟨as[i]?⟩ ∧
      m1.cells.length = m.cells.length + 1 ∧
      (∀ q, q < m.cells.length → q ∉ l.head_ :: as → m1.read q = m.read q) := by
  obtain ⟨hv, hc⟩ := (Models_iff _ _ _ _).1 hM
  obtain ⟨pre, a, post, x, zs, hcs, hlen, hpos, e1, e2, hr, -, -⟩ := hM.at_index hi
  have hlt := Mem.read_lt hr
  have hfresh : m.cells.length ∉ l.head_ :: as := fun hmem =>
    Nat.lt_irrefl _ (Chain.lt_length hc _ hmem)
  rw [hpos, InsertAfter_eval l v hr]
  have hold : ∀ q, q ≠ a → q ≠ m.cells.length →
      (Mem.mk ((m.cells ++ [some (Node.mk v as[i]?)]).set a
        (some (Node.mk x (some m.cells.length)))) : Mem α).read q = m.read q := by
    intro q hqa hqn
    rw [Mem.read_set (Mem.mk (m.cells ++ [some (Node.mk v as[i]?)])),
      if_neg (fun hc => hqa hc.1.symm), Mem.read_append, if_neg hqn]
  have ha : (Mem.mk ((m.cells ++ [some (Node.mk v as[i]?)]).set a
        (some (Node.mk x (some m.cells.length)))) : Mem α).read a
      = some ⟨x, some m.cells.length⟩ := by
    rw [Mem.read_set (Mem.mk (m.cells ++ [some (Node.mk v as[i]?)])),
      if_pos ⟨rfl, by simp; omega⟩]
  have hn : (Mem.mk ((m.cells ++ [some (Node.mk v as[i]?)]).set a
        (some (Node.mk x (some m.cells.length)))) : Mem α).read m.cells.length
      = some ⟨v, as[i]?⟩ := by
    rw [Mem.read_set (Mem.mk (m.cells ++ [some (Node.mk v as[i]?)])),
      if_neg (fun hc => Nat.ne_of_lt hlt hc.1), Mem.read_append, if_pos rfl]
  have hc1 : Chain m (some l.head_) (pre ++ a :: post) (hv :: xs) := hcs ▸ hc
  have hins := Chain.insert hr hold ha hn pre hc1 (hcs ▸ hfresh)
  have hamem : a ∈ l.head_ :: as := List.getElem?_mem hpos
  refine ⟨_, _, _, rfl, ?_, hfresh, rfl, rfl, rfl, ?_, ?_, ?_, ?_, ?_⟩
  · rw [Models_iff]
    refine ⟨hv, ?_⟩
    have e3 : pre ++ a :: m.cells.length :: post
        = l.head_ :: (as.take i ++ m.cells.length :: as.drop i) := by
      rw [← e2, ← List.cons_append, ← e1]
      simp
    rw [e3, hlen] at hins
    simpa using hins
  · simp [BasicIterator.deref, hn]
  · simp [BasicIterator.incr, hn]
  · simp [BasicIterator.incr, hr]
  · simp
  · intro q hq hqm
    exact hold q (fun e => hqm (e ▸ hamem)) (Nat.ne_of_lt hq)

/-- What EraseAfter does at position `i` of a list object (0 is the sentinel). -/
theorem EraseAfter_core (m : Mem α) (l : SingleLinkedList) (as : List Nat) (xs : List α)
    (i : Nat) (hM : Models m l as xs) (hs : l.size_ = as.length) (hi : i < as.length) :
    ∃ m1 l1 it, SingleLinkedList.EraseAfter m l ⟨(l.head_ :: as)[i]?⟩ = .ok (m1, l1, it) ∧
      Models m1 l1 (as.eraseIdx i) (xs.eraseIdx i) ∧
      l1.head_ = l.head_ ∧ l1.size_ + 1 = l.size_ ∧
      it.node_ = as[i + 1]? ∧ (i + 1 = as.length → it.node_ = none) ∧
      BasicIterator.incr m1 ⟨(l.head_ :: as)[i]?⟩ = .ok it ∧
      (∀ d, as[i]? = some d → m1.read d = none) ∧
      m1.cells.length = m.cells.length ∧
      (∀ q, q ∉ l.head_ :: as → m1.read q = m.read q) := by
  obtain ⟨hv, hc⟩ := (Models_iff _ _ _ _).1 hM
  obtain ⟨pre, a, post, x, zs, hcs, hlen, hpos, e1, e2, hra, hch, -⟩ :=
    hM.at_index (Nat.le_of_lt hi)
  have hd : as[i]? = some as[i] := List.getElem?_eq_getElem hi
  have hpost : post = as[i] :: as.drop (i + 1) := by
    rw [e2]
    exact List.drop_eq_getElem_cons hi
  rw [hd] at hra hch
  rw [hpost] at hch hcs
  obtain ⟨y, ny, ws, -, -, hrd, hch2⟩ := Chain.cons_left hch
  have hny : ny = as[i + 1]? := by
    rw [Chain.head_eq hch2, List.head?_drop]
  subst hny
  have hc1 : Chain m (some l.head_) (pre ++ a :: as[i] :: as.drop (i + 1)) (hv :: xs) :=
    hcs ▸ hc
  have hnd := Chain.nodup hc1
  have hne : a ≠ as[i] := by
    intro e
    rw [List.nodup_append] at hnd
    have := (List.nodup_cons.1 hnd.2.1).1
    exact this (by rw [e]; exact List.mem_cons_self _ _)
  have hlta := Mem.read_lt hra
  have hltd := Mem.read_lt hrd
  rw [hpos, EraseAfter_eval l hra hrd hne]
  have hold : ∀ q, q ≠ a → q ≠ as[i] →
      (Mem.mk ((m.cells.set a (some (Node.mk x as[i + 1]?))).set as[i] none) : Mem α).read q
        = m.read q := by
    intro q hqa hqd
    rw [Mem.read_set (Mem.mk (m.cells.set a (some (Node.mk x as[i + 1]?)))),
      if_neg (fun hc => hqd hc.1.symm), Mem.read_set, if_neg (fun hc => hqa hc.1.symm)]
  have ha : (Mem.mk ((m.cells.set a (some (Node.mk x as[i + 1]?))).set as[i] none) :
      Mem α).read a = some ⟨x, as[i + 1]?⟩ := by
    rw [Mem.read_set (Mem.mk (m.cells.set a (some (Node.mk x as[i + 1]?)))),
      if_neg (fun hc => hne hc.1.symm), Mem.read_set, if_pos ⟨rfl, hlta⟩]
  have her := Chain.erase hra hrd hold ha pre hc1
  have hamem : a ∈ l.head_ :: as := List.getElem?_mem hpos
  have hdmem : as[i] ∈ l.head_ :: as := List.mem_cons_of_mem _ (List.getElem_mem hi)
  refine ⟨_, _, _, rfl, ?_, rfl, ?_, rfl, ?_, ?_, ?_, ?_, ?_⟩
  · rw [Models_iff]
    refine ⟨hv, ?_⟩
    have e3 : pre ++ a :: as.drop (i + 1) = l.head_ :: as.eraseIdx i := by
      rw [← List.singleton_append, ← List.append_assoc, e1, List.eraseIdx_eq_take_drop_succ]
      simp
    rw [e3, hlen] at her
    simpa using her
  · simp only [decr]
    rw [if_neg (by omega)]
    omega
  · intro hlast
    simp only
    exact List.getElem?_eq_none (by omega)
  · simp [BasicIterator.incr, ha]
  · intro d hdd
    rw [hd] at hdd
    cases hdd
    rw [Mem.read_set (Mem.mk (m.cells.set a (some (Node.mk x as[i + 1]?)))),
      if_pos ⟨rfl, by simp; omega⟩]
  · simp
  · intro q hqm
    exact hold q (fun e => hqm (e ▸ hamem)) (fun e => hqm (e ▸ hdmem))


/-! ## The front operations, Clear and swap on a list object -/

theorem Models.transfer {m m2 : Mem α} {l : SingleLinkedList} {as : List Nat} {xs : List α}
    (h : Models m l as xs) (hf : ∀ q ∈ l.head_ :: as, m2.read q = m.read q)
    (l2 : SingleLinkedList) (hl : l2.head_ = l.head_) : Models m2 l2 as xs := by
  obtain ⟨hn, hr, hc⟩ := h.read_head
  refine Models.of_read hn ?_ (Chain.frame hc (fun a ha => hf a (List.mem_cons_of_mem _ ha)))
  rw [hl, hf _ (List.mem_cons_self _ _), hr]

theorem Models.cells_lt {m : Mem α} {l : SingleLinkedList} {as : List Nat} {xs : List α}
    (h : Models m l as xs) : ∀ q ∈ l.head_ :: as, q < m.cells.length := by
  obtain ⟨hv, hc⟩ := (Models_iff _ _ _ _).1 h
  exact Chain.lt_length hc

theorem PushFront_core (m : Mem α) (l : SingleLinkedList) (as : List Nat) (xs : List α)
    (v : α) (hM : Models m l as xs) :
    ∃ m1, SingleLinkedList.PushFront m l v = .ok (m1, ⟨l.head_, l.size_ + 1⟩) ∧
      Models m1 ⟨l.head_, l.size_ + 1⟩ (m.cells.length :: as) (v :: xs) ∧
      m1.cells.length = m.cells.length + 1 ∧
      (∀ q, q < m.cells.length → q ≠ l.head_ → m1.read q = m.read q) := by
  obtain ⟨hn, hr, hc⟩ := hM.read_head
  have hlt := Mem.read_lt hr
  have hnd := hM.cells_nodup
  have hold : ∀ q, q < m.cells.length → q ≠ l.head_ →
      (Mem.mk ((m.cells ++ [some (Node.mk v hn.next_node)]).set l.head_
        (some (Node.mk hn.value (some m.cells.length)))) : Mem α).read q = m.read q := by
    intro q hq hqh
    rw [Mem.read_set (Mem.mk (m.cells ++ [some (Node.mk v hn.next_node)])),
      if_neg (fun hc => hqh hc.1.symm), Mem.read_append, if_neg (Nat.ne_of_lt hq)]
  refine ⟨_, PushFront_eval l v hr, ?_, by simp, hold⟩
  refine Models.of_read ⟨hn.value, some m.cells.length⟩ ?_ ?_
  · rw [Mem.read_set (Mem.mk (m.cells ++ [some (Node.mk v hn.next_node)])),
      if_pos ⟨rfl, by simp; omega⟩]
  · rw [Chain.cons_iff]
    refine ⟨rfl, hn.next_node, ?_, Chain.frame hc ?_⟩
    · rw [Mem.read_set (Mem.mk (m.cells ++ [some (Node.mk v hn.next_node)])),
        if_neg (fun hc => Nat.ne_of_lt hlt hc.1), Mem.read_append, if_pos rfl]
    · intro a ha
      refine hold a (Chain.lt_length hc a ha) (fun e => ?_)
      exact (List.nodup_cons.1 hnd).1 (e ▸ ha)

theorem PopFront_core (m : Mem α) (l : SingleLinkedList) (as : List Nat) (xs : List α)
    (hM : Models m l as xs) (hs : l.size_ = as.length) :
    ∃ m1, SingleLinkedList.PopFront m l = .ok (m1, ⟨l.head_, as.length - 1⟩) ∧
      Models m1 ⟨l.head_, as.length - 1⟩ as.tail xs.tail ∧
      m1.cells.length = m.cells.length ∧
      (∀ q, q ∉ l.head_ :: as → m1.read q = m.read q) ∧
      (∀ a, as.head? = some a → m1.read a = none) ∧
      (as = [] → m1 = m) := by
  obtain ⟨hn, hr, hc⟩ := hM.read_head
  cases as with
  | nil =>
    obtain ⟨rfl, -⟩ := Chain.nil_left hc
    refine ⟨m, ?_, hM.transfer (fun _ _ => rfl) _ rfl, rfl, fun _ _ => rfl, by simp, fun _ => rfl⟩
    cases l with
    | mk head size =>
      simp only [List.length_nil] at hs
      subst hs
      simp [SingleLinkedList.PopFront, SingleLinkedList.IsEmpty]
  | cons f as =>
    obtain ⟨y, ny, ys, rfl, hp, h2, h3⟩ := Chain.cons_left hc
    cases hn with
    | mk hv nx =>
      simp only at hp
      subst hp
      have hnd := hM.cells_nodup
      simp only [List.nodup_cons, List.mem_cons, not_or] at hnd
      have hlth := Mem.read_lt hr
      have hltf := Mem.read_lt h2
      have hold : ∀ q, q ≠ l.head_ → q ≠ f →
          (Mem.mk ((m.cells.set l.head_ (some (Node.mk hv ny))).set f none) : Mem α).read q
            = m.read q := by
        intro q hq1 hq2
        rw [Mem.read_set (Mem.mk (m.cells.set l.head_ (some (Node.mk hv ny)))),
          if_neg (fun hc => hq2 hc.1.symm), Mem.read_set, if_neg (fun hc => hq1 hc.1.symm)]
      refine ⟨Mem.mk ((m.cells.set l.head_ (some (Node.mk hv ny))).set f none),
        ?_, ?_, ?_, ?_, ?_, by simp⟩
      · rw [PopFront_eval (by rw [hs]; simp) hr h2 hnd.1.1, hs]
        simp [decr]
      · refine Models.of_read ⟨hv, ny⟩ ?_ ?_
        · rw [Mem.read_set (Mem.mk (m.cells.set l.head_ (some (Node.mk hv ny)))),
            if_neg (fun hc => hnd.1.1 hc.1.symm), Mem.read_set, if_pos ⟨rfl, hlth⟩]
        · refine Chain.frame h3 ?_
          intro a ha
          exact hold a (fun e => hnd.1.2 (e ▸ ha)) (fun e => hnd.2.1 (e ▸ ha))
      · simp
      · intro q hq
        simp only [List.mem_cons, not_or] at hq
        exact hold q hq.1 hq.2.1
      · intro a ha
        simp only [List.head?_cons, Option.some.injEq] at ha
        subst ha
        rw [Mem.read_set (Mem.mk (m.cells.set l.head_ (some (Node.mk hv ny)))),
          if_pos ⟨rfl, by simp; omega⟩]

theorem ClearLoop_spec (head : Nat) (as : List Nat) : ∀ (m : Mem α) (xs : List α) (hv : α)
    (p : Option Nat), m.read head = some ⟨hv, p⟩ → Chain m p as xs → head ∉ as →
    ∃ m1, SingleLinkedList.ClearLoop m head as.length = .ok m1 ∧
      m1.read head = some ⟨hv, none⟩ ∧ m1.cells.length = m.cells.length ∧
      (∀ q, q ∉ head :: as → m1.read q = m.read q) ∧ (∀ a ∈ as, m1.read a = none) := by
  induction as with
  | nil =>
    intro m xs hv p hr hc _
    obtain ⟨-, rfl⟩ := Chain.nil_left hc
    exact ⟨m, rfl, hr, rfl, fun _ _ => rfl, by simp⟩
  | cons a as ih =>
    intro m xs hv p hr hc hh
    have hnd := Chain.nodup hc
    obtain ⟨x, nx, ys, rfl, rfl, h2, h3⟩ := Chain.cons_left hc
    simp only [List.mem_cons, not_or] at hh
    simp only [List.nodup_cons] at hnd
    have hlth := Mem.read_lt hr
    have hlta := Mem.read_lt h2
    have hr1 : (Mem.mk (m.cells.set a none) : Mem α).read head = some ⟨hv, some a⟩ := by
      rw [Mem.read_set, if_neg (fun hc => hh.1 hc.1.symm), hr]
    have hold : ∀ q, q ≠ head → q ≠ a →
        (Mem.mk ((m.cells.set a none).set head (some (Node.mk hv nx))) : Mem α).read q
          = m.read q := by
      intro q hq1 hq2
      rw [Mem.read_set (Mem.mk (m.cells.set a none)), if_neg (fun hc => hq1 hc.1.symm),
        Mem.read_set, if_neg (fun hc => hq2 hc.1.symm)]
    have hr2 : (Mem.mk ((m.cells.set a none).set head (some (Node.mk hv nx))) : Mem α).read head
        = some ⟨hv, nx⟩ := by
      rw [Mem.read_set (Mem.mk (m.cells.set a none)), if_pos ⟨rfl, by simp; omega⟩]
    have hra : (Mem.mk ((m.cells.set a none).set head (some (Node.mk hv nx))) : Mem α).read a
        = none := by
      rw [Mem.read_set (Mem.mk (m.cells.set a none)), if_neg (fun hc => hh.1 hc.1),
        Mem.read_set, if_pos ⟨rfl, hlta⟩]
    have hc2 : Chain (Mem.mk ((m.cells.set a none).set head (some (Node.mk hv nx)))) nx as ys :=
      Chain.frame h3 (fun b hb => hold b (fun e => hh.2 (e ▸ hb)) (fun e => hnd.1 (e ▸ hb)))
    obtain ⟨m1, e1, e2, e3, e4, e5⟩ := ih _ ys hv nx hr2 hc2 hh.2
    refine ⟨m1, ?_, e2, by simpa using e3, ?_, ?_⟩
    · simp only [List.length_cons, SingleLinkedList.ClearLoop, hr, h2]
      rw [Mem.delete_ok h2]
      simp only []
      rw [Mem.setNext_ok hr1]
      exact e1
    · intro q hq
      simp only [List.mem_cons, not_or] at hq
      rw [e4 q (by simp only [List.mem_cons, not_or]; exact ⟨hq.1, hq.2.2⟩),
        hold q hq.1 hq.2.1]
    · intro b hb
      rcases List.mem_cons.1 hb with rfl | hb
      · rw [e4 b (by simp only [List.mem_cons, not_or]; exact ⟨fun e => hh.1 e.symm, hnd.1⟩), hra]
      · exact e5 b hb

theorem Clear_core (m : Mem α) (l : SingleLinkedList) (as : List Nat) (xs : List α)
    (hM : Models m l as xs) (hs : l.size_ = as.length) :
    ∃ m1, SingleLinkedList.Clear m l = .ok (m1, ⟨l.head_, 0⟩) ∧
      Models m1 ⟨l.head_, 0⟩ [] [] ∧ m1.cells.length = m.cells.length ∧
      (∀ q, q ∉ l.head_ :: as → m1.read q = m.read q) ∧ (∀ a ∈ as, m1.read a = none) := by
  obtain ⟨hn, hr, hc⟩ := hM.read_head
  have hnd := hM.cells_nodup
  obtain ⟨m1, e1, e2, e3, e4, e5⟩ :=
    ClearLoop_spec l.head_ as m xs hn.value hn.next_node hr hc (List.nodup_cons.1 hnd).1
  refine ⟨m1, ?_, ?_, e3, e4, e5⟩
  · simp [SingleLinkedList.Clear, hs, e1]
  · exact Models.of_read ⟨hn.value, none⟩ e2 (by simp [Chain])

theorem swap_core (m : Mem α) (a b : SingleLinkedList) (as bs : List Nat) (xs ys : List α)
    (hA : Models m a as xs) (hB : Models m b bs ys) (hab : a.head_ ∉ bs) (hba : b.head_ ∉ as) :
    ∃ m1, a.swap m b = .ok (m1, ⟨a.head_, b.size_⟩, ⟨b.head_, a.size_⟩) ∧
      Models m1 ⟨a.head_, b.size_⟩ bs ys ∧ Models m1 ⟨b.head_, a.size_⟩ as xs ∧
      m1.cells.length = m.cells.length ∧
      (∀ q, q ≠ a.head_ → q ≠ b.head_ → m1.read q = m.read q) := by
  obtain ⟨ha, hra, hca⟩ := hA.read_head
  obtain ⟨hb, hrb, hcb⟩ := hB.read_head
  have hlta := Mem.read_lt hra
  have hltb := Mem.read_lt hrb
  have hnda := (List.nodup_cons.1 hA.cells_nodup).1
  have hndb := (List.nodup_cons.1 hB.cells_nodup).1
  by_cases he : a.head_ = b.head_
  · have hab2 : ha = hb := by
      rw [he, hrb] at hra
      exact (Option.some.inj hra).symm
    subst hab2
    have hr1 : (Mem.mk (m.cells.set a.head_ (some (Node.mk ha.value ha.next_node))) :
        Mem α).read b.head_ = some ⟨ha.value, ha.next_node⟩ := by
      rw [Mem.read_set, if_pos ⟨he, hlta⟩]
    have hold : ∀ q, q ≠ b.head_ →
        (Mem.mk ((m.cells.set a.head_ (some (Node.mk ha.value ha.next_node))).set b.head_
          (some (Node.mk ha.value ha.next_node))) : Mem α).read q = m.read q := by
      intro q hq
      rw [Mem.read_set (Mem.mk (m.cells.set a.head_ (some (Node.mk ha.value ha.next_node)))),
        if_neg (fun hc => hq hc.1.symm), Mem.read_set, if_neg (fun hc => hq (he ▸ hc.1.symm))]
    have hrh : (Mem.mk ((m.cells.set a.head_ (some (Node.mk ha.value ha.next_node))).set b.head_
          (some (Node.mk ha.value ha.next_node))) : Mem α).read b.head_
        = some ⟨ha.value, ha.next_node⟩ := by
      rw [Mem.read_set (Mem.mk (m.cells.set a.head_ (some (Node.mk ha.value ha.next_node)))),
        if_pos ⟨rfl, by simp; omega⟩]
    refine ⟨_, ?_, ?_, ?_, by simp, fun q _ hq => hold q hq⟩
    · simp only [SingleLinkedList.swap, hra, hrb]
      rw [Mem.setNext_ok hra]
      simp only []
      rw [Mem.setNext_ok hr1]
    · refine Models.of_read ⟨ha.value, ha.next_node⟩ (by simp only [he] at hrh ⊢; exact hrh) ?_
      exact Chain.frame hcb (fun q hq => hold q (fun e => hndb (e ▸ hq)))
    · refine Models.of_read ⟨ha.value, ha.next_node⟩ hrh ?_
      exact Chain.frame hca (fun q hq => hold q (fun e => hba (e ▸ hq)))
  · have hr1 : (Mem.mk (m.cells.set a.head_ (some (Node.mk ha.value hb.next_node))) :
        Mem α).read b.head_ = some hb := by
      rw [Mem.read_set, if_neg (fun hc => he hc.1), hrb]
    have hold : ∀ q, q ≠ a.head_ → q ≠ b.head_ →
        (Mem.mk ((m.cells.set a.head_ (some (Node.mk ha.value hb.next_node))).set b.head_
          (some (Node.mk hb.value ha.next_node))) : Mem α).read q = m.read q := by
      intro q hq1 hq2
      rw [Mem.read_set (Mem.mk (m.cells.set a.head_ (some (Node.mk ha.value hb.next_node)))),
        if_neg (fun hc => hq2 hc.1.symm), Mem.read_set, if_neg (fun hc => hq1 hc.1.symm)]
    refine ⟨_, ?_, ?_, ?_, by simp, hold⟩
    · simp only [SingleLinkedList.swap, hra, hrb]
      rw [Mem.setNext_ok hra]
      simp only []
      rw [Mem.setNext_ok hr1]
    · refine Models.of_read ⟨ha.value, hb.next_node⟩ ?_ ?_
      · rw [Mem.read_set (Mem.mk (m.cells.set a.head_ (some (Node.mk ha.value hb.next_node)))),
          if_neg (fun hc => he hc.1.symm), Mem.read_set, if_pos ⟨rfl, hlta⟩]
      · exact Chain.frame hcb (fun q hq => hold q (fun e => hab (e ▸ hq)) (fun e => hndb (e ▸ hq)))
    · refine Models.of_read ⟨hb.value, ha.next_node⟩ ?_ ?_
      · rw [Mem.read_set (Mem.mk (m.cells.set a.head_ (some (Node.mk ha.value hb.next_node)))),
          if_pos ⟨rfl, by simp; omega⟩]
      · exact Chain.frame hca (fun q hq => hold q (fun e => hnda (e ▸ hq)) (fun e => hba (e ▸ hq)))


/-! ## Constructors, destructor, copy and assignment -/

theorem ctor_default_core [Inhabited α] (m : Mem α) :
    ∃ m1, SingleLinkedList.ctor_default m = (m1, ⟨m.cells.length + 1, 0⟩) ∧
      Models m1 ⟨m.cells.length + 1, 0⟩ [] [] ∧
      m1.read (m.cells.length + 1) = some ⟨default, none⟩ ∧
      m1.cells.length = m.cells.length + 2 ∧
      (∀ q, q < m.cells.length → m1.read q = m.read q) := by
  have hr : (Mem.mk ((m.cells ++ [some (Node.mk default none)]) ++
      [some (Node.mk default none)]) : Mem α).read (m.cells.length + 1)
      = some ⟨default, none⟩ := by
    rw [Mem.read_append (Mem.mk (m.cells ++ [some (Node.mk default none)])), if_pos (by simp)]
  refine ⟨Mem.mk ((m.cells ++ [some (Node.mk default none)]) ++
      [some (Node.mk default none)]), ?_, ?_, hr, by simp, ?_⟩
  · simp [SingleLinkedList.ctor_default, Mem.new]
  · exact Models.of_read ⟨default, none⟩ hr (by simp [Chain])
  · intro q hq
    rw [Mem.read_append (Mem.mk (m.cells ++ [some (Node.mk default none)])),
      if_neg (by simp; omega), Mem.read_append, if_neg (Nat.ne_of_lt hq)]

theorem copyLoop_spec (bs : List Nat) : ∀ (m : Mem α) (ys : List α) (p : Option Nat)
    (prev : Nat) (pv : α) (fuel : Nat), Chain m p bs ys → m.read prev = some ⟨pv, none⟩ →
    prev ∉ bs → bs.length ≤ fuel →
    ∃ m1 nx, SingleLinkedList.copyLoop ⟨none⟩ fuel m ⟨p⟩ prev = .ok m1 ∧
      m1.cells.length = m.cells.length + bs.length ∧
      (∀ q, q < m.cells.length → q ≠ prev → m1.read q = m.read q) ∧
      m1.read prev = some ⟨pv, nx⟩ ∧
      Chain m1 nx (List.range' m.cells.length bs.length) ys := by
  induction bs with
  | nil =>
    intro m ys p prev pv fuel hc hp _ _
    obtain ⟨rfl, rfl⟩ := Chain.nil_left hc
    refine ⟨m, none, ?_, rfl, fun _ _ _ => rfl, hp, by simp [Chain]⟩
    unfold SingleLinkedList.copyLoop
    simp [BasicIterator.ne, BasicIterator.eq]
  | cons b0 bs ih =>
    intro m ys p prev pv fuel hc hp hpb hf
    obtain ⟨y, nb, zs, rfl, rfl, h2, h3⟩ := Chain.cons_left hc
    simp only [List.mem_cons, not_or] at hpb
    cases fuel with
    | zero => simp at hf
    | succ fuel =>
      have hltp := Mem.read_lt hp
      have hltb := Mem.read_lt h2
      have hlt := Chain.lt_length h3
      have hp1 : (Mem.mk (m.cells ++ [some (Node.mk y none)]) : Mem α).read prev
          = some ⟨pv, none⟩ := by
        rw [Mem.read_append, if_neg (Nat.ne_of_lt hltp), hp]
      have hold : ∀ q, q < m.cells.length → q ≠ prev →
          (Mem.mk ((m.cells ++ [some (Node.mk y none)]).set prev
            (some (Node.mk pv (some m.cells.length)))) : Mem α).read q = m.read q := by
        intro q hq hqp
        rw [Mem.read_set (Mem.mk (m.cells ++ [some (Node.mk y none)])),
          if_neg (fun hc => hqp hc.1.symm), Mem.read_append, if_neg (Nat.ne_of_lt hq)]
      have hnew : (Mem.mk ((m.cells ++ [some (Node.mk y none)]).set prev
            (some (Node.mk pv (some m.cells.length)))) : Mem α).read m.cells.length
          = some ⟨y, none⟩ := by
        rw [Mem.read_set (Mem.mk (m.cells ++ [some (Node.mk y none)])),
          if_neg (fun hc => Nat.ne_of_lt hltp hc.1), Mem.read_append, if_pos rfl]
      have hprev : (Mem.mk ((m.cells ++ [some (Node.mk y none)]).set prev
            (some (Node.mk pv (some m.cells.length)))) : Mem α).read prev
          = some ⟨pv, some m.cells.length⟩ := by
        rw [Mem.read_set (Mem.mk (m.cells ++ [some (Node.mk y none)])),
          if_pos ⟨rfl, by simp; omega⟩]
      have hb2 : (Mem.mk ((m.cells ++ [some (Node.mk y none)]).set prev
            (some (Node.mk pv (some m.cells.length)))) : Mem α).read b0
          = some ⟨y, nb⟩ := by
        rw [hold b0 hltb (fun e => hpb.1 e.symm), h2]
      have hc2 : Chain (Mem.mk ((m.cells ++ [some (Node.mk y none)]).set prev
            (some (Node.mk pv (some m.cells.length))))) nb bs zs :=
        Chain.frame h3 (fun q hq => hold q (hlt q hq) (fun e => hpb.2 (e ▸ hq)))
      have hfresh : m.cells.length ∉ bs := fun hmem => Nat.lt_irrefl _ (hlt _ hmem)
      obtain ⟨m1, nx, e1, e2, e3, e4, e5⟩ :=
        ih _ zs nb m.cells.length y fuel hc2 hnew hfresh (by simpa using hf)
      simp only [List.length_set, List.length_append, List.length_singleton] at e2 e3 e5
      refine ⟨m1, some m.cells.length, ?_, ?_, ?_, ?_, ?_⟩
      · unfold SingleLinkedList.copyLoop
        simp only [BasicIterator.ne, BasicIterator.eq, BasicIterator.deref, h2, Mem.new]
        rw [Mem.setNext_ok hp1]
        simp only [BasicIterator.incr, hb2]
        simpa using e1
      · rw [e2, List.length_cons]
        omega
      · intro q hq hqp
        rw [e3 q (by omega) (Nat.ne_of_lt hq), hold q hq hqp]
      · rw [e3 prev (by omega) (Nat.ne_of_lt hltp), hprev]
      · rw [List.length_cons, List.range'_succ, Chain.cons_iff]
        exact ⟨rfl, nx, e4, e5⟩

theorem dtor_core (m : Mem α) (l : SingleLinkedList) (as : List Nat) (xs : List α)
    (hM : Models m l as xs) (hs : l.size_ = as.length) :
    ∃ m1, l.dtor m = .ok m1 ∧ m1.cells.length = m.cells.length ∧
      (∀ q, q ∉ l.head_ :: as → m1.read q = m.read q) ∧
      (∀ q ∈ l.head_ :: as, m1.read q = none) := by
  obtain ⟨m1, e1, e2, e3, e4, e5⟩ := Clear_core m l as xs hM hs
  obtain ⟨hn, hr, -⟩ := e2.read_head
  simp only at hr
  have hnd := hM.cells_nodup
  have hlt := Mem.read_lt hr
  refine ⟨Mem.mk (m1.cells.set l.head_ none), ?_, by simpa using e3, ?_, ?_⟩
  · simp only [SingleLinkedList.dtor, e1]
    rw [Mem.delete_ok hr]
  · intro q hq
    have hne : ¬(l.head_ = q ∧ l.head_ < m1.cells.length) :=
      fun hc => hq (hc.1 ▸ List.mem_cons_self _ _)
    rw [Mem.read_set, if_neg hne, e4 q hq]
  · intro q hq
    rcases List.mem_cons.1 hq with rfl | hq
    · rw [Mem.read_set, if_pos ⟨rfl, hlt⟩]
    · have hne : ¬(l.head_ = q ∧ l.head_ < m1.cells.length) :=
        fun hc => (List.nodup_cons.1 hnd).1 (hc.1 ▸ hq)
      rw [Mem.read_set, if_neg hne, e5 q hq]


theorem ctor_copy_steps [Inhabited α] (fuel : Nat) (m : Mem α) (other : SingleLinkedList)
    {m1 m2 m3 m4 : Mem α} {tmp this1 tmp2 : SingleLinkedList} {b e : BasicIterator}
    (h1 : SingleLinkedList.ctor_default (m.new ⟨default, none⟩).1 = (m1, tmp))
    (hb : other.begin m1 = .ok b) (he : other.end_ m1 = .ok e)
    (hl : SingleLinkedList.copyLoop e fuel m1 b tmp.head_ = .ok m2)
    (hs : SingleLinkedList.swap m2 ⟨m.cells.length, 0⟩ ⟨tmp.head_, other.size_⟩
      = .ok (m3, this1, tmp2))
    (hd : tmp2.dtor m3 = .ok m4) :
    SingleLinkedList.ctor_copy fuel m other = .ok (m4, this1) := by
  have h0 := Mem.read_new_self m (⟨default, none⟩ : Node α)
  have hn : (m.new (⟨default, none⟩ : Node α)).2 = m.cells.length := rfl
  unfold SingleLinkedList.ctor_copy
  simp only [hn, h0, h1, hb, he, hl, hs, hd, and_self, if_true]

theorem ctor_copy_core [Inhabited α] (fuel : Nat) (m : Mem α) (other : SingleLinkedList)
    (as : List Nat) (xs : List α) (hM : Models m other as xs) (hs : other.size_ = as.length)
    (hf : as.length ≤ fuel) :
    ∃ m4, SingleLinkedList.ctor_copy fuel m other = .ok (m4, ⟨m.cells.length, as.length⟩) ∧
      Models m4 ⟨m.cells.length, as.length⟩ (List.range' (m.cells.length + 3) as.length) xs ∧
      m4.cells.length = m.cells.length + 3 + as.length ∧
      (∀ q, q < m.cells.length → m4.read q = m.read q) := by
  obtain ⟨hn, hr, hc⟩ := hM.read_head
  have hlt := hM.cells_lt
  have hlth := Mem.read_lt hr
  -- the storage of the new object
  have hlen0 : (m.new (⟨default, none⟩ : Node α)).1.cells.length = m.cells.length + 1 := by
    simp [Mem.new]
  have hf0 : ∀ q, q < m.cells.length → (m.new (⟨default, none⟩ : Node α)).1.read q = m.read q :=
    fun q hq => Mem.read_new_old m _ hq
  have hthis0 := Mem.read_new_self m (⟨default, none⟩ : Node α)
  -- the temporary list
  obtain ⟨m1, hd1, -, hr1, hl1, hf1⟩ := ctor_default_core (m.new (⟨default, none⟩ : Node α)).1
  rw [hlen0] at hd1 hr1 hl1 hf1
  have hold1 : ∀ q, q < m.cells.length → m1.read q = m.read q := fun q hq => by
    rw [hf1 q (by omega), hf0 q hq]
  have hthis1 : m1.read m.cells.length = some ⟨default, none⟩ := by
    rw [hf1 _ (by omega), hthis0]
  have hc1 : Chain m1 hn.next_node as xs :=
    Chain.frame hc (fun q hq => hold1 q (hlt q (List.mem_cons_of_mem _ hq)))
  have hb : other.begin m1 = .ok ⟨hn.next_node⟩ := by
    simp [SingleLinkedList.begin, hold1 _ hlth, hr]
  have he : other.end_ m1 = .ok ⟨none⟩ := by
    simp [SingleLinkedList.end_, hb, hs, advance_chain hc1]
  -- the copying loop
  have hnot : m.cells.length + 1 + 1 ∉ as := fun hmem => by
    have := hlt _ (List.mem_cons_of_mem _ hmem)
    omega
  obtain ⟨m2, nx, hl2, hlen2, hf2, hr2, hc2⟩ :=
    copyLoop_spec as m1 xs hn.next_node (m.cells.length + 1 + 1) default fuel hc1 hr1 hnot hf
  rw [hl1] at hlen2 hf2 hc2
  have hthis2 : m2.read m.cells.length = some ⟨default, none⟩ := by
    rw [hf2 _ (by omega) (by omega), hthis1]
  -- the swap
  have hMthis : Models m2 ⟨m.cells.length, 0⟩ [] [] :=
    Models.of_read ⟨default, none⟩ hthis2 (by simp [Chain])
  have hMtmp : Models m2 ⟨m.cells.length + 1 + 1, other.size_⟩
      (List.range' (m.cells.length + 1 + 2) as.length) xs :=
    Models.of_read ⟨default, nx⟩ hr2 hc2
  obtain ⟨m3, hs3, hM3a, hM3b, hlen3, hf3⟩ :=
    swap_core m2 ⟨m.cells.length, 0⟩ ⟨m.cells.length + 1 + 1, other.size_⟩ []
      (List.range' (m.cells.length + 1 + 2) as.length) [] xs hMthis hMtmp
      (by simp only [List.mem_range'_1]; omega) (by simp)
  -- the temporary list is destroyed
  obtain ⟨m4, hd4, hlen4, hf4, -⟩ := dtor_core m3 ⟨m.cells.length + 1 + 1, 0⟩ [] [] hM3b rfl
  refine ⟨m4, ?_, ?_, ?_, ?_⟩
  · rw [ctor_copy_steps fuel m other hd1 hb he hl2 hs3 hd4, hs]
  · have hM : Models m4 ⟨m.cells.length, as.length⟩ _ _ := hM3a.transfer (fun q hq => hf4 q (by
      simp only [List.mem_cons, List.mem_range'_1, List.not_mem_nil, or_false] at hq ⊢
      omega)) ⟨m.cells.length, as.length⟩ rfl
    exact hM
  · rw [hlen4, hlen3, hlen2]
  · intro q hq
    rw [hf4 q (by simp; omega), hf3 q (by simp; omega) (by simp; omega),
      hf2 q (by omega) (by omega), hold1 q hq]

theorem assign_core [Inhabited α] (fuel : Nat) (m : Mem α) (l other : SingleLinkedList)
    (as bs : List Nat) (xs ys : List α) (hL : Models m l as xs) (hsl : l.size_ = as.length)
    (hO : Models m other bs ys) (hso : other.size_ = bs.length)
    (hsep : ∀ q ∈ l.head_ :: as, q ∉ other.head_ :: bs) (hf : bs.length ≤ fuel) :
    ∃ m3, SingleLinkedList.assign fuel m l other = .ok (m3, ⟨l.head_, bs.length⟩) ∧
      Models m3 ⟨l.head_, bs.length⟩ (List.range' (m.cells.length + 3) bs.length) ys ∧
      Models m3 other bs ys ∧
      (∀ q, q < m.cells.length → q ∉ l.head_ :: as → m3.read q = m.read q) ∧
      (∀ a ∈ as, m3.read a = none) := by
  have hltL := hL.cells_lt
  have hltO := hO.cells_lt
  have hne : l.head_ ≠ other.head_ := fun e =>
    hsep _ (List.mem_cons_self _ _) (e ▸ List.mem_cons_self _ _)
  obtain ⟨m1, hc1, hM1, hlen1, hf1⟩ := ctor_copy_core fuel m other bs ys hO hso hf
  have hL1 : Models m1 l as xs := hL.transfer (fun q hq => hf1 q (hltL q hq)) l rfl
  have hlh := hltL _ (List.mem_cons_self _ _)
  obtain ⟨m2, hs2, hM2a, hM2b, hlen2, hf2⟩ :=
    swap_core m1 l ⟨m.cells.length, bs.length⟩ as (List.range' (m.cells.length + 3) bs.length)
      xs ys hL1 hM1
      (by simp only [List.mem_range'_1]; omega)
      (fun hmem => Nat.lt_irrefl _ (hltL _ (List.mem_cons_of_mem _ hmem)))
  obtain ⟨m3, hd3, hlen3, hf3, hfree3⟩ := dtor_core m2 ⟨m.cells.length, l.size_⟩ as xs hM2b hsl
  simp only at hs2 hM2a hf2 hf3 hfree3
  refine ⟨m3, ?_, ?_, ?_, ?_, ?_⟩
  · simp only [SingleLinkedList.assign, if_pos hne, hc1, hs2, hd3]
  · refine hM2a.transfer (fun q hq => hf3 q ?_) _ rfl
    simp only [List.mem_cons, List.mem_range'_1] at hq
    simp only [List.mem_cons, not_or]
    rcases hq with rfl | hq
    · exact ⟨Nat.ne_of_lt hlh, (List.nodup_cons.1 hL.cells_nodup).1⟩
    · exact ⟨by omega, fun hmem => by
        have := hltL _ (List.mem_cons_of_mem _ hmem)
        omega⟩
  · refine hO.transfer (fun q hq => ?_) _ rfl
    have hq1 := hltO q hq
    have hq2 : q ∉ l.head_ :: as := fun hmem => hsep q hmem hq
    simp only [List.mem_cons, not_or] at hq2
    rw [hf3 q (by simp only [List.mem_cons, not_or]; exact ⟨Nat.ne_of_lt hq1, hq2.2⟩),
      hf2 q hq2.1 (Nat.ne_of_lt hq1), hf1 q hq1]
  · intro q hq hqm
    simp only [List.mem_cons, not_or] at hqm
    rw [hf3 q (by simp only [List.mem_cons, not_or]; exact ⟨Nat.ne_of_lt hq, hqm.2⟩),
      hf2 q hqm.1 (Nat.ne_of_lt hq), hf1 q hq]
  · intro a ha
    exact hfree3 a (List.mem_cons_of_mem _ ha)


/-! ## begin, end and the comparison loops on a list object -/

theorem advance_chain_index {m : Mem α} {p : Option Nat} {as : List Nat} {xs : List α}
    (h : Chain m p as xs) {k : Nat} (hk : k ≤ as.length) :
    advance m ⟨p⟩ k = .ok ⟨as[k]?⟩ := by
  induction as generalizing p xs k with
  | nil =>
    obtain ⟨-, rfl⟩ := Chain.nil_left h
    have hk0 : k = 0 := by simpa using hk
    subst hk0
    simp [advance]
  | cons a as ih =>
    obtain ⟨x, nx, ys, rfl, rfl, h2, h3⟩ := Chain.cons_left h
    cases k with
    | zero => simp [advance]
    | succ k =>
      simp only [advance, BasicIterator.incr, h2, List.getElem?_cons_succ]
      exact ih h3 (by simpa using hk)

theorem Models.begin_end {m : Mem α} {l : SingleLinkedList} {as : List Nat} {xs : List α}
    (hM : Models m l as xs) (hs : l.size_ = as.length) :
    ∃ hn, m.read l.head_ = some hn ∧ Chain m hn.next_node as xs ∧
      l.begin m = .ok ⟨hn.next_node⟩ ∧ l.end_ m = .ok ⟨none⟩ := by
  obtain ⟨hn, hr, hc⟩ := hM.read_head
  have hb : l.begin m = .ok ⟨hn.next_node⟩ := by simp [SingleLinkedList.begin, hr]
  refine ⟨hn, hr, hc, hb, ?_⟩
  simp [SingleLinkedList.end_, hb, hs, advance_chain hc]

theorem std_lexicographical_compare_chain [LT α] [∀ a b : α, Decidable (a < b)]
    {m : Mem α} (as : List Nat) : ∀ {p q : Option Nat} {bs : List Nat} {xs ys : List α}
    (fuel : Nat), Chain m p as xs → Chain m q bs ys → min xs.length ys.length ≤ fuel →
    std_lexicographical_compare m ⟨none⟩ ⟨none⟩ fuel ⟨p⟩ ⟨q⟩ = .ok (lexLess xs ys) := by
  induction as with
  | nil =>
    intro p q bs xs ys fuel h1 h2 _
    obtain ⟨rfl, rfl⟩ := Chain.nil_left h1
    unfold std_lexicographical_compare
    cases bs with
    | nil =>
      obtain ⟨rfl, rfl⟩ := Chain.nil_left h2
      simp [BasicIterator.ne, BasicIterator.eq, lexLess]
    | cons b bs =>
      obtain ⟨y, ny, zs, rfl, rfl, -, -⟩ := Chain.cons_left h2
      simp [BasicIterator.ne, BasicIterator.eq, lexLess]
  | cons a as ih =>
    intro p q bs xs ys fuel h1 h2 hf
    obtain ⟨x, nx, xs1, rfl, rfl, r1, c1⟩ := Chain.cons_left h1
    cases bs with
    | nil =>
      obtain ⟨rfl, rfl⟩ := Chain.nil_left h2
      unfold std_lexicographical_compare
      simp [BasicIterator.ne, BasicIterator.eq, lexLess]
    | cons b bs =>
      obtain ⟨y, ny, ys1, rfl, rfl, r2, c2⟩ := Chain.cons_left h2
      cases fuel with
      | zero => simp at hf
      | succ fuel =>
        have hf1 : min xs1.length ys1.length ≤ fuel := by
          simp only [List.length_cons] at hf
          omega
        unfold std_lexicographical_compare
        simp only [BasicIterator.ne, BasicIterator.eq, BasicIterator.deref,
          BasicIterator.incr, r1, r2, lexLess]
        by_cases hxy : x < y
        · simp [hxy]
        · by_cases hyx : y < x
          · simp [hxy, hyx]
          · simp [hxy, hyx, ih fuel c1 c2 hf1]

theorem operator_lt_core [LT α] [∀ a b : α, Decidable (a < b)] (fuel : Nat) (m : Mem α)
    (lhs rhs : SingleLinkedList) (as bs : List Nat) (xs ys : List α)
    (hL : Models m lhs as xs) (hsl : lhs.size_ = as.length)
    (hR : Models m rhs bs ys) (hsr : rhs.size_ = bs.length)
    (hf : min xs.length ys.length ≤ fuel) :
    operator_lt fuel m lhs rhs = .ok (lexLess xs ys) := by
  obtain ⟨hn1, -, c1, b1, e1⟩ := hL.begin_end hsl
  obtain ⟨hn2, -, c2, b2, e2⟩ := hR.begin_end hsr
  simp only [operator_lt, SingleLinkedList.cbegin, SingleLinkedList.cend, b1, e1, b2, e2]
  exact std_lexicographical_compare_chain as fuel c1 c2 hf

theorem lexLess_iff_lt [LT α] [∀ a b : α, Decidable (a < b)] (xs ys : List α) :
    lexLess xs ys = true ↔ List.lt xs ys := by
  induction xs generalizing ys with
  | nil =>
    cases ys with
    | nil =>
      simp only [lexLess, Bool.false_eq_true, false_iff]
      intro h
      cases h
    | cons y ys =>
      simp only [lexLess, true_iff]
      exact List.lt.nil y ys
  | cons x xs ih =>
    cases ys with
    | nil =>
      simp only [lexLess, Bool.false_eq_true, false_iff]
      intro h
      cases h
    | cons y ys =>
      simp only [lexLess]
      by_cases hxy : x < y
      · simp only [hxy, if_true, true_iff]
        exact List.lt.head xs ys hxy
      · by_cases hyx : y < x
        · simp only [hxy, hyx, if_false, if_true, Bool.false_eq_true, false_iff]
          intro h
          cases h with
          | head _ _ h1 => exact hxy h1
          | tail _ h2 _ => exact h2 hyx
        · simp only [hxy, hyx, if_false]
          rw [ih ys]
          constructor
          · intro h
            exact List.lt.tail hxy hyx h
          · intro h
            cases h with
            | head _ _ h1 => exact absurd h1 hxy
            | tail _ _ h3 => exact h3


/-- What the loop of `std::equal` returns when the right-hand chain is at least as long
as the left-hand one: whether the left sequence is a prefix of the right one. -/
theorem std_equal_chain [DecidableEq α] {m : Mem α} (as : List Nat) :
    ∀ {p q : Option Nat} {bs : List Nat} {xs ys : List α} (fuel : Nat),
    Chain m p as xs → Chain m q bs ys → xs.length ≤ ys.length → xs.length ≤ fuel →
    std_equal m ⟨none⟩ fuel ⟨p⟩ ⟨q⟩ = .ok (decide (xs = ys.take xs.length)) := by
  induction as with
  | nil =>
    intro p q bs xs ys fuel h1 _ _ _
    obtain ⟨rfl, rfl⟩ := Chain.nil_left h1
    unfold std_equal
    simp [BasicIterator.ne, BasicIterator.eq]
  | cons a as ih =>
    intro p q bs xs ys fuel h1 h2 hl hf
    obtain ⟨x, nx, xs1, rfl, rfl, r1, c1⟩ := Chain.cons_left h1
    cases bs with
    | nil =>
      obtain ⟨rfl, rfl⟩ := Chain.nil_left h2
      simp at hl
    | cons b bs =>
      obtain ⟨y, ny, ys1, rfl, rfl, r2, c2⟩ := Chain.cons_left h2
      cases fuel with
      | zero => simp at hf
      | succ fuel =>
        simp only [List.length_cons, Nat.add_le_add_iff_right] at hl hf
        unfold std_equal
        simp only [BasicIterator.ne, BasicIterator.eq, BasicIterator.deref,
          BasicIterator.incr, r1, r2]
        by_cases hxy : x = y
        · simp [hxy, ih fuel c1 c2 hl hf]
        · simp [hxy]

/-- What the loop of `std::equal` does when the right-hand chain is shorter and the
two sequences agree on it: it dereferences the null iterator of the right-hand side. -/
theorem std_equal_short [DecidableEq α] {m : Mem α} (bs : List Nat) :
    ∀ {p q : Option Nat} {as : List Nat} {xs ys : List α} (fuel : Nat),
    Chain m p as xs → Chain m q bs ys → ys.length < xs.length → ys.length < fuel →
    ys = xs.take ys.length →
    std_equal m ⟨none⟩ fuel ⟨p⟩ ⟨q⟩ = .ub := by
  induction bs with
  | nil =>
    intro p q as xs ys fuel h1 h2 hl hf _
    obtain ⟨rfl, rfl⟩ := Chain.nil_left h2
    cases as with
    | nil =>
      obtain ⟨rfl, -⟩ := Chain.nil_left h1
      simp at hl
    | cons a as =>
      obtain ⟨x, nx, xs1, rfl, rfl, r1, -⟩ := Chain.cons_left h1
      cases fuel with
      | zero => simp at hf
      | succ fuel =>
        unfold std_equal
        simp [BasicIterator.ne, BasicIterator.eq, BasicIterator.deref, r1]
  | cons b bs ih =>
    intro p q as xs ys fuel h1 h2 hl hf he
    obtain ⟨y, ny, ys1, rfl, rfl, r2, c2⟩ := Chain.cons_left h2
    cases as with
    | nil =>
      obtain ⟨rfl, -⟩ := Chain.nil_left h1
      simp at hl
    | cons a as =>
      obtain ⟨x, nx, xs1, rfl, rfl, r1, c1⟩ := Chain.cons_left h1
      cases fuel with
      | zero => simp at hf
      | succ fuel =>
        simp only [List.length_cons, Nat.add_lt_add_iff_right] at hl hf
        simp only [List.length_cons, List.take_succ_cons, List.cons.injEq] at he
        unfold std_equal
        simp only [BasicIterator.ne, BasicIterator.eq, BasicIterator.deref,
          BasicIterator.incr, r1, r2]
        simp [he.1, ih fuel c1 c2 hl hf he.2]

/-- What list `operator==` returns on two list objects: with a right-hand side at least
as long as the left-hand side it tests whether the left sequence is a prefix of the
right one, and with a shorter right-hand side that agrees with the left one it is
undefined behaviour. -/
theorem operator_eq_core [DecidableEq α] (fuel : Nat) (m : Mem α)
    (lhs rhs : SingleLinkedList) (as bs : List Nat) (xs ys : List α)
    (hL : Models m lhs as xs) (hsl : lhs.size_ = as.length) (hR : Models m rhs bs ys) :
    (xs.length ≤ ys.length → xs.length ≤ fuel →
      operator_eq fuel m lhs rhs = .ok (decide (xs = ys.take xs.length))) ∧
    (ys.length < xs.length → ys.length < fuel → ys = xs.take ys.length →
      operator_eq fuel m lhs rhs = .ub) := by
  obtain ⟨hn1, -, c1, b1, e1⟩ := hL.begin_end hsl
  obtain ⟨hn2, r2, c2⟩ := hR.read_head
  have b2 : rhs.begin m = .ok ⟨hn2.next_node⟩ := by simp [SingleLinkedList.begin, r2]
  constructor
  · intro hl hf
    simp only [operator_eq, b1, e1, b2]
    exact std_equal_chain as fuel c1 c2 hl hf
  · intro hl hf he
    simp only [operator_eq, b1, e1, b2]
    exact std_equal_short bs fuel c1 c2 hl hf he


/-! ## The loop of Clear, iteration by iteration -/

theorem ClearBody_eval {m : Mem α} (l : SingleLinkedList) {a : Nat} {hv x : α}
    {nx : Option Nat} (hr : m.read l.head_ = some ⟨hv, some a⟩)
    (ha : m.read a = some ⟨x, nx⟩) (hne : l.head_ ≠ a) :
    ClearBody m l = .ok (Mem.mk ((m.cells.set a none).set l.head_ (some (Node.mk hv nx))),
      ⟨l.head_, decr l.size_⟩) := by
  have hr1 : (Mem.mk (m.cells.set a none) : Mem α).read l.head_ = some ⟨hv, some a⟩ := by
    rw [Mem.read_set, if_neg (fun hc => hne hc.1.symm), hr]
  simp only [ClearBody, hr, ha]
  rw [Mem.delete_ok ha]
  simp only []
  rw [Mem.setNext_ok hr1]

theorem ClearLoop_step {m : Mem α} (head : Nat) {a : Nat} {hv x : α}
    {nx : Option Nat} (hr : m.read head = some ⟨hv, some a⟩)
    (ha : m.read a = some ⟨x, nx⟩) (hne : head ≠ a) (n : Nat) :
    SingleLinkedList.ClearLoop m head (n + 1) =
      SingleLinkedList.ClearLoop
        (Mem.mk ((m.cells.set a none).set head (some (Node.mk hv nx)))) head n := by
  have hr1 : (Mem.mk (m.cells.set a none) : Mem α).read head = some ⟨hv, some a⟩ := by
    rw [Mem.read_set, if_neg (fun hc => hne hc.1.symm), hr]
  simp only [SingleLinkedList.ClearLoop, hr, ha]
  rw [Mem.delete_ok ha]
  simp only []
  rw [Mem.setNext_ok hr1]

/-- The state of the loop of `Clear` after one iteration on a non-empty chain. -/
theorem Clear_one_iteration {m : Mem α} {head a : Nat} {as : List Nat} {hv : α}
    {xs : List α} {nx : Option Nat} (hr : m.read head = some ⟨hv, some a⟩)
    (hc : Chain m nx as xs) (hh : head ∉ a :: as)
    (hnd : (a :: as).Nodup) :
    (Mem.mk ((m.cells.set a none).set head (some (Node.mk hv nx))) : Mem α).read head
        = some ⟨hv, nx⟩ ∧
      Chain (Mem.mk ((m.cells.set a none).set head (some (Node.mk hv nx)))) nx as xs := by
  simp only [List.mem_cons, not_or] at hh
  simp only [List.nodup_cons] at hnd
  have hlth := Mem.read_lt hr
  constructor
  · rw [Mem.read_set (Mem.mk (m.cells.set a none)), if_pos ⟨rfl, by simp; omega⟩]
  · refine Chain.frame hc (fun b hb => ?_)
    have h1 : ¬(head = b ∧ head < (m.cells.set a none).length) := fun hc => hh.2 (hc.1 ▸ hb)
    have h2 : ¬(a = b ∧ a < m.cells.length) := fun hc => hnd.1 (hc.1 ▸ hb)
    rw [Mem.read_set (Mem.mk (m.cells.set a none)), if_neg h1, Mem.read_set, if_neg h2]

theorem ClearWhile_spec (as : List Nat) : ∀ (m : Mem α) (l : SingleLinkedList) (xs : List α)
    (hv : α) (p : Option Nat) (fuel : Nat), l.size_ = as.length →
    m.read l.head_ = some ⟨hv, p⟩ → Chain m p as xs → l.head_ ∉ as → as.length ≤ fuel →
    ∃ m1, ClearWhile fuel m l = .ok (m1, ⟨l.head_, 0⟩, as.length) ∧
      SingleLinkedList.ClearLoop m l.head_ as.length = .ok m1 := by
  induction as with
  | nil =>
    intro m l xs hv p fuel hs _ _ _ _
    cases l with
    | mk head size =>
      simp only [List.length_nil] at hs
      subst hs
      refine ⟨m, ?_, rfl⟩
      unfold ClearWhile
      simp [SingleLinkedList.IsEmpty]
  | cons a as ih =>
    intro m l xs hv p fuel hs hr hc hh hf
    have hnd := Chain.nodup hc
    obtain ⟨x, nx, ys, rfl, rfl, h2, h3⟩ := Chain.cons_left hc
    have hne : l.head_ ≠ a := fun e => hh (e ▸ List.mem_cons_self _ _)
    obtain ⟨hr2, hc2⟩ := Clear_one_iteration hr h3 hh hnd
    cases fuel with
    | zero => simp at hf
    | succ fuel =>
      have hd : decr l.size_ = as.length := by
        rw [hs]
        simp [decr]
      obtain ⟨m1, e1, e2⟩ := ih _ ⟨l.head_, as.length⟩ ys hv nx fuel rfl hr2 hc2
        (fun hmem => hh (List.mem_cons_of_mem _ hmem)) (by simpa using hf)
      refine ⟨m1, ?_, ?_⟩
      · unfold ClearWhile
        simp only [SingleLinkedList.IsEmpty, hs, List.length_cons, Nat.succ_pos, if_true,
          Bool.not_false]
        rw [ClearBody_eval l hr h2 hne, hd]
        simp only [e1]
      · rw [List.length_cons, ClearLoop_step l.head_ hr h2 hne]
        exact e2

theorem ClearSteps_spec (as : List Nat) : ∀ (m : Mem α) (l : SingleLinkedList) (xs : List α)
    (hv : α) (p : Option Nat) (k : Nat), l.size_ = as.length →
    m.read l.head_ = some ⟨hv, p⟩ → Chain m p as xs → l.head_ ∉ as → k ≤ as.length →
    ∃ mk, ClearSteps k m l = .ok (mk, ⟨l.head_, as.length - k⟩) ∧
      mk.read l.head_ = some ⟨hv, as[k]?⟩ ∧ Chain mk as[k]? (as.drop k) (xs.drop k) := by
  induction as with
  | nil =>
    intro m l xs hv p k hs hr hc _ hk
    have hk0 : k = 0 := by simpa using hk
    subst hk0
    obtain ⟨rfl, rfl⟩ := Chain.nil_left hc
    cases l with
    | mk head size =>
      simp only [List.length_nil] at hs
      subst hs
      exact ⟨m, rfl, hr, by simp [Chain]⟩
  | cons a as ih =>
    intro m l xs hv p k hs hr hc hh hk
    have hnd := Chain.nodup hc
    obtain ⟨x, nx, ys, rfl, rfl, h2, h3⟩ := Chain.cons_left hc
    cases k with
    | zero =>
      cases l with
      | mk head size =>
        simp only at hs
        subst hs
        refine ⟨m, rfl, by simpa using hr, ?_⟩
        simpa using hc
    | succ k =>
      have hne : l.head_ ≠ a := fun e => hh (e ▸ List.mem_cons_self _ _)
      obtain ⟨hr2, hc2⟩ := Clear_one_iteration hr h3 hh hnd
      have hd : decr l.size_ = as.length := by
        rw [hs]
        simp [decr]
      obtain ⟨mk, e1, e2, e3⟩ := ih _ ⟨l.head_, as.length⟩ ys hv nx k rfl hr2 hc2
        (fun hmem => hh (List.mem_cons_of_mem _ hmem)) (by simpa using hk)
      refine ⟨mk, ?_, ?_, ?_⟩
      · simp only [ClearSteps]
        rw [ClearBody_eval l hr h2 hne, hd]
        simpa using e1
      · simpa using e2
      · simpa using e3


/-- Over a strict total order exactly one of "less", "equal", "greater" holds for the
lexicographic comparison of two sequences. -/
theorem lexLess_trichotomy [LinearOrder α] (xs : List α) : ∀ ys : List α,
    (lexLess xs ys = true ∧ xs ≠ ys ∧ lexLess ys xs = false) ∨
    (lexLess xs ys = false ∧ xs = ys ∧ lexLess ys xs = false) ∨
    (lexLess xs ys = false ∧ xs ≠ ys ∧ lexLess ys xs = true) := by
  induction xs with
  | nil =>
    intro ys
    cases ys with
    | nil => simp [lexLess]
    | cons y ys => simp [lexLess]
  | cons x xs ih =>
    intro ys
    cases ys with
    | nil => simp [lexLess]
    | cons y ys =>
      rcases lt_trichotomy x y with h | h | h
      · have h2 : ¬ y < x := not_lt.2 (le_of_lt h)
        have h3 : x ≠ y := ne_of_lt h
        simp [lexLess, h, h2, h3]
      · subst h
        have h1 : ¬ x < x := lt_irrefl x
        rcases ih ys with h4 | h4 | h4
        · simp [lexLess, h1, h4]
        · obtain ⟨h5, h6, h7⟩ := h4
          subst h6
          simp [lexLess, h1, h5]
        · simp [lexLess, h1, h4]
      · have h2 : ¬ x < y := not_lt.2 (le_of_lt h)
        have h3 : x ≠ y := (ne_of_lt h).symm
        simp [lexLess, h, h2, h3]

/-- For two list objects of the same length over a strict total order, exactly one of
(a < b), (a == b), (a > b) returns true. -/
theorem trichotomy_same_length [LinearOrder α] (fuel : Nat) (m : Mem α)
    (a b : SingleLinkedList) (as bs : List Nat) (xs ys : List α)
    (hA : Models m a as xs) (hsa : a.size_ = as.length)
    (hB : Models m b bs ys) (hsb : b.size_ = bs.length)
    (hlen : xs.length = ys.length) (hf : xs.length ≤ fuel) :
    ∃ lt eq gt : Bool, operator_lt fuel m a b = .ok lt ∧ operator_eq fuel m a b = .ok eq ∧
      operator_gt fuel m a b = .ok gt ∧
      ((lt = true ∧ eq = false ∧ gt = false) ∨ (lt = false ∧ eq = true ∧ gt = false) ∨
        (lt = false ∧ eq = false ∧ gt = true)) := by
  have h1 := operator_lt_core fuel m a b as bs xs ys hA hsa hB hsb
    (Nat.le_trans (Nat.min_le_left _ _) hf)
  have h2 : operator_gt fuel m a b = .ok (lexLess ys xs) :=
    operator_lt_core fuel m b a bs as ys xs hB hsb hA hsa
      (Nat.le_trans (Nat.min_le_right _ _) hf)
  have h3 := (operator_eq_core fuel m a b as bs xs ys hA hsa hB).1 (Nat.le_of_eq hlen) hf
  rw [hlen, List.take_length] at h3
  refine ⟨_, _, _, h1, h3, h2, ?_⟩
  rcases lexLess_trichotomy xs ys with h | h | h
  · simp [h]
  · obtain ⟨h5, h6, h7⟩ := h
    subst h6
    simp [h5]
  · simp [h]



/-! ## The claims -/

/-- C2: the lists {1, 2, 3} and {1, 2} are built by the initializer-list constructor;
operator== on ({1, 2}, {1, 2, 3}) returns true and operator!= returns false although
the lengths differ, and operator== on ({1, 2, 3}, {1, 2}) dereferences the null
iterator of the shorter right-hand side, which is undefined behaviour. -/
theorem operator_eq_length_blind :
    SingleLinkedList.ctor_init (⟨[]⟩ : Mem Nat) [1, 2, 3] = .ok (mem123, list123) ∧
    SingleLinkedList.ctor_init mem123 [1, 2] = .ok (mem123_12, list12) ∧
    operator_eq 2 mem123_12 list12 list123 = .ok true ∧
    operator_ne 2 mem123_12 list12 list123 = .ok false ∧
    operator_eq 3 mem123_12 list123 list12 = .ub ∧
    operator_ne 3 mem123_12 list123 list12 = .ub := by
  decide

/-- C4: for every list object (empty or not) whose cached size equals its chain length
and every value v, PushFront(v) followed by PopFront() returns, gives back the list
object with the size_ it had (still the chain length), leaves the same nodes with the
same element sequence behind the sentinel, and leaves every cell that existed before
unchanged. -/
theorem PushFront_PopFront_roundtrip (m : Mem α) (l : SingleLinkedList) (as : List Nat)
    (xs : List α) (v : α) (hM : Models m l as xs) (hs : l.size_ = as.length) :
    ∃ m1 l1 m2 l2, SingleLinkedList.PushFront m l v = .ok (m1, l1) ∧
      SingleLinkedList.PopFront m1 l1 = .ok (m2, l2) ∧
      l2 = l ∧ l2.GetSize = l.GetSize ∧ l2.size_ = as.length ∧ Models m2 l2 as xs ∧
      (∀ q, q < m.cells.length → m2.read q = m.read q) := by
  obtain ⟨hn, hr, hc⟩ := hM.read_head
  have hlt := Mem.read_lt hr
  have hne : l.head_ ≠ m.cells.length := Nat.ne_of_lt hlt
  have hr1 : (Mem.mk ((m.cells ++ [some (Node.mk v hn.next_node)]).set l.head_
      (some (Node.mk hn.value (some m.cells.length)))) : Mem α).read l.head_
      = some ⟨hn.value, some m.cells.length⟩ := by
    rw [Mem.read_set (Mem.mk (m.cells ++ [some (Node.mk v hn.next_node)])),
      if_pos ⟨rfl, by simp; omega⟩]
  have hr2 : (Mem.mk ((m.cells ++ [some (Node.mk v hn.next_node)]).set l.head_
      (some (Node.mk hn.value (some m.cells.length)))) : Mem α).read m.cells.length
      = some ⟨v, hn.next_node⟩ := by
    rw [Mem.read_set (Mem.mk (m.cells ++ [some (Node.mk v hn.next_node)])),
      if_neg (fun hc => hne hc.1), Mem.read_append, if_pos rfl]
  have hpop := PopFront_eval (l := ⟨l.head_, l.size_ + 1⟩) (Nat.succ_pos _) hr1 hr2 hne
  have hold : ∀ q, q < m.cells.length →
      (Mem.mk ((((m.cells ++ [some (Node.mk v hn.next_node)]).set l.head_
        (some (Node.mk hn.value (some m.cells.length)))).set l.head_
        (some (Node.mk hn.value hn.next_node))).set m.cells.length none) : Mem α).read q
        = m.read q := by
    intro q hq
    rw [Mem.read_set (Mem.mk (((m.cells ++ [some (Node.mk v hn.next_node)]).set l.head_
        (some (Node.mk hn.value (some m.cells.length)))).set l.head_
        (some (Node.mk hn.value hn.next_node)))),
      if_neg (fun hc => Nat.ne_of_lt hq hc.1.symm),
      Mem.read_set (Mem.mk ((m.cells ++ [some (Node.mk v hn.next_node)]).set l.head_
        (some (Node.mk hn.value (some m.cells.length)))))]
    by_cases hqh : l.head_ = q
    · rw [if_pos ⟨hqh, by simp; omega⟩, ← hqh, hr]
    · rw [if_neg (fun hc => hqh hc.1),
        Mem.read_set (Mem.mk (m.cells ++ [some (Node.mk v hn.next_node)])),
        if_neg (fun hc => hqh hc.1), Mem.read_append, if_neg (Nat.ne_of_lt hq)]
  refine ⟨_, _, _, _, PushFront_eval l v hr, hpop, ?_, ?_, ?_, ?_, hold⟩
  · simp [decr]
  · simp [decr, SingleLinkedList.GetSize]
  · simp [decr, hs]
  · exact hM.transfer (fun q hq => hold q (hM.cells_lt q hq)) _ rfl

/-- Witness for C4 on the list {1, 2, 3}. -/
theorem PushFront_PopFront_roundtrip_witness :
    Models mem123 list123 [1, 2, 3] [1, 2, 3] ∧ list123.size_ = [1, 2, 3].length ∧
    ∃ m1 l1 m2 l2, SingleLinkedList.PushFront mem123 list123 0 = .ok (m1, l1) ∧
      SingleLinkedList.PopFront m1 l1 = .ok (m2, l2) ∧
      l2 = list123 ∧ l2.GetSize = list123.GetSize ∧ l2.size_ = [1, 2, 3].length ∧
      Models m2 l2 [1, 2, 3] [1, 2, 3] ∧
      (∀ q, q < mem123.cells.length → m2.read q = mem123.read q) :=
  ⟨by decide, by decide,
    PushFront_PopFront_roundtrip mem123 list123 [1, 2, 3] [1, 2, 3] 0 (by decide)
      (by decide)⟩

/-- C5: for every list object, every position i (0 is the sentinel before_begin, i the
i-th real node) and every value v, InsertAfter(pos, v) followed by EraseAfter(pos)
returns, gives back the list object with the size_ it had, leaves the same nodes with
the same element sequence and every cell that existed before unchanged, and the
iterator returned by EraseAfter references the node that followed pos originally,
which is the null (end) iterator when pos was the last node. -/
theorem InsertAfter_EraseAfter_roundtrip (m : Mem α) (l : SingleLinkedList) (as : List Nat)
    (xs : List α) (i : Nat) (v : α) (hM : Models m l as xs) (hi : i ≤ as.length) :
    ∃ m1 l1 it1 m2 l2 it2,
      SingleLinkedList.InsertAfter m l ⟨(l.head_ :: as)[i]?⟩ v = .ok (m1, l1, it1) ∧
      SingleLinkedList.EraseAfter m1 l1 ⟨(l.head_ :: as)[i]?⟩ = .ok (m2, l2, it2) ∧
      l2 = l ∧ l2.GetSize = l.GetSize ∧ Models m2 l2 as xs ∧
      (∀ q, q < m.cells.length → m2.read q = m.read q) ∧
      it2.node_ = as[i]? ∧ (i = as.length → it2.node_ = none) ∧
      BasicIterator.incr m ⟨(l.head_ :: as)[i]?⟩ = .ok it2 := by
  obtain ⟨pre, a, post, x, zs, hcs, hlen, hpos, e1, e2, hr, -, -⟩ := hM.at_index hi
  have hlt := Mem.read_lt hr
  have hne : a ≠ m.cells.length := Nat.ne_of_lt hlt
  have hr1 : (Mem.mk ((m.cells ++ [some (Node.mk v as[i]?)]).set a
      (some (Node.mk x (some m.cells.length)))) : Mem α).read a
      = some ⟨x, some m.cells.length⟩ := by
    rw [Mem.read_set (Mem.mk (m.cells ++ [some (Node.mk v as[i]?)])),
      if_pos ⟨rfl, by simp; omega⟩]
  have hr2 : (Mem.mk ((m.cells ++ [some (Node.mk v as[i]?)]).set a
      (some (Node.mk x (some m.cells.length)))) : Mem α).read m.cells.length
      = some ⟨v, as[i]?⟩ := by
    rw [Mem.read_set (Mem.mk (m.cells ++ [some (Node.mk v as[i]?)])),
      if_neg (fun hc => hne hc.1), Mem.read_append, if_pos rfl]
  have her := EraseAfter_eval ⟨l.head_, l.size_ + 1⟩ hr1 hr2 hne
  have hold : ∀ q, q < m.cells.length →
      (Mem.mk ((((m.cells ++ [some (Node.mk v as[i]?)]).set a
        (some (Node.mk x (some m.cells.length)))).set a
        (some (Node.mk x as[i]?))).set m.cells.length none) : Mem α).read q
        = m.read q := by
    intro q hq
    rw [Mem.read_set (Mem.mk (((m.cells ++ [some (Node.mk v as[i]?)]).set a
        (some (Node.mk x (some m.cells.length)))).set a (some (Node.mk x as[i]?)))),
      if_neg (fun hc => Nat.ne_of_lt hq hc.1.symm),
      Mem.read_set (Mem.mk ((m.cells ++ [some (Node.mk v as[i]?)]).set a
        (some (Node.mk x (some m.cells.length)))))]
    by_cases hqa : a = q
    · rw [if_pos ⟨hqa, by simp; omega⟩, ← hqa, hr]
    · rw [if_neg (fun hc => hqa hc.1),
        Mem.read_set (Mem.mk (m.cells ++ [some (Node.mk v as[i]?)])),
        if_neg (fun hc => hqa hc.1), Mem.read_append, if_neg (Nat.ne_of_lt hq)]
  rw [hpos]
  refine ⟨_, _, _, _, _, _, InsertAfter_eval l v hr, her, ?_, ?_, ?_, hold, rfl, ?_, ?_⟩
  · simp [decr]
  · simp [decr, SingleLinkedList.GetSize]
  · exact hM.transfer (fun q hq => hold q (hM.cells_lt q hq)) _ rfl
  · intro hlast
    simp only
    exact List.getElem?_eq_none (by omega)
  · simp [BasicIterator.incr, hr]

/-- Witness for C5 on the list {1, 2, 3}, at its last node. -/
theorem InsertAfter_EraseAfter_roundtrip_witness :
    Models mem123 list123 [1, 2, 3] [1, 2, 3] ∧ 3 ≤ [1, 2, 3].length ∧
    ∃ m1 l1 it1 m2 l2 it2,
      SingleLinkedList.InsertAfter mem123 list123 ⟨(list123.head_ :: [1, 2, 3])[3]?⟩ 9
        = .ok (m1, l1, it1) ∧
      SingleLinkedList.EraseAfter m1 l1 ⟨(list123.head_ :: [1, 2, 3])[3]?⟩ = .ok (m2, l2, it2) ∧
      l2 = list123 ∧ l2.GetSize = list123.GetSize ∧ Models m2 l2 [1, 2, 3] [1, 2, 3] ∧
      (∀ q, q < mem123.cells.length → m2.read q = mem123.read q) ∧
      it2.node_ = [1, 2, 3][3]? ∧ (3 = [1, 2, 3].length → it2.node_ = none) ∧
      BasicIterator.incr mem123 ⟨(list123.head_ :: [1, 2, 3])[3]?⟩ = .ok it2 :=
  ⟨by decide, by decide,
    InsertAfter_EraseAfter_roundtrip mem123 list123 [1, 2, 3] [1, 2, 3] 3 9 (by decide)
      (by decide)⟩


/-- C6: for a list object with node addresses as and element sequence xs whose cached
size equals its chain length, and the position i (0 is the sentinel, i the i-th real
node), InsertAfter(pos, v) returns, the new node is a fresh one, the sequence becomes
xs with v inserted right after position i with all other elements kept in order,
size_ grows by exactly 1 and is again the chain length, and the returned iterator
references the new node: dereferencing it yields v and its successor is the former
successor of pos. -/
theorem InsertAfter_spec (m : Mem α) (l : SingleLinkedList) (as : List Nat) (xs : List α)
    (i : Nat) (v : α) (hM : Models m l as xs) (hs : l.size_ = as.length)
    (hi : i ≤ as.length) :
    ∃ m1 l1 it, SingleLinkedList.InsertAfter m l ⟨(l.head_ :: as)[i]?⟩ v = .ok (m1, l1, it) ∧
      Models m1 l1 (as.take i ++ m.cells.length :: as.drop i) (xs.take i ++ v :: xs.drop i) ∧
      m.cells.length ∉ l.head_ :: as ∧
      l1.head_ = l.head_ ∧ l1.GetSize = l.GetSize + 1 ∧
      l1.size_ = (as.take i ++ m.cells.length :: as.drop i).length ∧
      it.node_ = some m.cells.length ∧ it.deref m1 = .ok v ∧
      it.incr m1 = .ok ⟨as[i]?⟩ ∧
      BasicIterator.incr m ⟨(l.head_ :: as)[i]?⟩ = .ok ⟨as[i]?⟩ := by
  obtain ⟨m1, l1, it, h1, h2, h3, h4, h5, h6, h7, h8, h9, -, -⟩ :=
    InsertAfter_core m l as xs i v hM hi
  refine ⟨m1, l1, it, h1, h2, h3, h4, h5, ?_, h6, h7, h8, h9⟩
  rw [h5, hs]
  simp only [List.length_append, List.length_take, List.length_cons, List.length_drop]
  omega

/-- Witness for C6 on the list {1, 2, 3}, after its first node. -/
theorem InsertAfter_spec_witness :
    Models mem123 list123 [1, 2, 3] [1, 2, 3] ∧ list123.size_ = [1, 2, 3].length ∧
    1 ≤ [1, 2, 3].length ∧
    ∃ m1 l1 it, SingleLinkedList.InsertAfter mem123 list123
        ⟨(list123.head_ :: [1, 2, 3])[1]?⟩ 9 = .ok (m1, l1, it) ∧
      Models m1 l1 ([1, 2, 3].take 1 ++ mem123.cells.length :: [1, 2, 3].drop 1)
        ([1, 2, 3].take 1 ++ 9 :: [1, 2, 3].drop 1) ∧
      mem123.cells.length ∉ list123.head_ :: [1, 2, 3] ∧
      l1.head_ = list123.head_ ∧ l1.GetSize = list123.GetSize + 1 ∧
      l1.size_ = ([1, 2, 3].take 1 ++ mem123.cells.length :: [1, 2, 3].drop 1).length ∧
      it.node_ = some mem123.cells.length ∧ it.deref m1 = .ok 9 ∧
      it.incr m1 = .ok ⟨[1, 2, 3][1]?⟩ ∧
      BasicIterator.incr mem123 ⟨(list123.head_ :: [1, 2, 3])[1]?⟩ = .ok ⟨[1, 2, 3][1]?⟩ :=
  ⟨by decide, by decide, by decide,
    InsertAfter_spec mem123 list123 [1, 2, 3] [1, 2, 3] 1 9 (by decide) (by decide)
      (by decide)⟩

/-- C7: for a list object whose cached size equals its chain length, and a position i
(0 is the sentinel, i the i-th real node) that has a successor, EraseAfter(pos)
returns, removes exactly that successor from the sequence with all other elements kept
in order, lowers size_ by exactly 1, frees the removed node, and returns an iterator
to the node that is now next after pos, which is the null (end) iterator when the
removed node was the last one. -/
theorem EraseAfter_spec (m : Mem α) (l : SingleLinkedList) (as : List Nat) (xs : List α)
    (i : Nat) (hM : Models m l as xs) (hs : l.size_ = as.length) (hi : i < as.length) :
    ∃ m1 l1 it, SingleLinkedList.EraseAfter m l ⟨(l.head_ :: as)[i]?⟩ = .ok (m1, l1, it) ∧
      Models m1 l1 (as.eraseIdx i) (xs.eraseIdx i) ∧
      l1.head_ = l.head_ ∧ l1.GetSize + 1 = l.GetSize ∧
      it.node_ = as[i + 1]? ∧ (i + 1 = as.length → it.node_ = none) ∧
      BasicIterator.incr m1 ⟨(l.head_ :: as)[i]?⟩ = .ok it ∧
      (∀ d, as[i]? = some d → m1.read d = none) := by
  obtain ⟨m1, l1, it, h1, h2, h3, h4, h5, h6, h7, h8, -, -⟩ :=
    EraseAfter_core m l as xs i hM hs hi
  exact ⟨m1, l1, it, h1, h2, h3, h4, h5, h6, h7, h8⟩

/-- Witness for C7 on the list {1, 2, 3}: the last node is erased. -/
theorem EraseAfter_spec_witness :
    Models mem123 list123 [1, 2, 3] [1, 2, 3] ∧ list123.size_ = [1, 2, 3].length ∧
    2 < [1, 2, 3].length ∧
    ∃ m1 l1 it, SingleLinkedList.EraseAfter mem123 list123
        ⟨(list123.head_ :: [1, 2, 3])[2]?⟩ = .ok (m1, l1, it) ∧
      Models m1 l1 ([1, 2, 3].eraseIdx 2) ([1, 2, 3].eraseIdx 2) ∧
      l1.head_ = list123.head_ ∧ l1.GetSize + 1 = list123.GetSize ∧
      it.node_ = [1, 2, 3][2 + 1]? ∧ (2 + 1 = [1, 2, 3].length → it.node_ = none) ∧
      BasicIterator.incr m1 ⟨(list123.head_ :: [1, 2, 3])[2]?⟩ = .ok it ∧
      (∀ d, [1, 2, 3][2]? = some d → m1.read d = none) :=
  ⟨by decide, by decide, by decide,
    EraseAfter_spec mem123 list123 [1, 2, 3] [1, 2, 3] 2 (by decide) (by decide) (by decide)⟩

/-- C8: for a list object whose cached size equals its chain length, PopFront()
returns; on an empty list it leaves the memory and the list object unchanged, with
size_ 0; on a list with the sequence x :: S it leaves the sequence S, lowers size_ by
exactly 1 and frees the first node. -/
theorem PopFront_spec (m : Mem α) (l : SingleLinkedList) (as : List Nat) (xs : List α)
    (hM : Models m l as xs) (hs : l.size_ = as.length) :
    ∃ m1 l1, SingleLinkedList.PopFront m l = .ok (m1, l1) ∧ l1.head_ = l.head_ ∧
      (xs = [] → m1 = m ∧ l1 = l ∧ l1.GetSize = 0 ∧ Models m1 l1 [] []) ∧
      (∀ x S, xs = x :: S →
        Models m1 l1 as.tail S ∧ l1.GetSize + 1 = l.GetSize ∧
        ∀ a, as.head? = some a → m1.read a = none) := by
  obtain ⟨m1, h1, h2, -, -, h5, h6⟩ := PopFront_core m l as xs hM hs
  have hlen := Chain.length_eq hM.read_head.choose_spec.2
  refine ⟨m1, _, h1, rfl, ?_, ?_⟩
  · intro hxs
    subst hxs
    have has : as = [] := List.length_eq_zero.1 (by simpa using hlen)
    subst has
    refine ⟨h6 rfl, ?_, rfl, by simpa using h2⟩
    cases l with
    | mk head size =>
      simp only [List.length_nil] at hs
      subst hs
      rfl
  · intro x S hxs
    subst hxs
    refine ⟨by simpa using h2, ?_, h5⟩
    simp only [SingleLinkedList.GetSize, hs]
    simp only [List.length_cons] at hlen
    omega

/-- Witness for C8 on the list {1, 2, 3}. -/
theorem PopFront_spec_witness :
    Models mem123 list123 [1, 2, 3] [1, 2, 3] ∧ list123.size_ = [1, 2, 3].length ∧
    ∃ m1 l1, SingleLinkedList.PopFront mem123 list123 = .ok (m1, l1) ∧
      l1.head_ = list123.head_ ∧
      (([1, 2, 3] : List Nat) = [] →
        m1 = mem123 ∧ l1 = list123 ∧ l1.GetSize = 0 ∧ Models m1 l1 [] []) ∧
      (∀ x S, ([1, 2, 3] : List Nat) = x :: S →
        Models m1 l1 [1, 2, 3].tail S ∧ l1.GetSize + 1 = list123.GetSize ∧
        ∀ a, [1, 2, 3].head? = some a → m1.read a = none) :=
  ⟨by decide, by decide,
    PopFront_spec mem123 list123 [1, 2, 3] [1, 2, 3] (by decide) (by decide)⟩


/-- C9: for a source list object with node addresses as and element sequence xs whose
cached size equals its chain length, the copy constructor (with fuel for the length of
the source) returns a list with exactly the sequence xs in source order and the same
size, made of nodes that are all different from the nodes of the source, and the
source keeps its nodes, its sequence and every cell it had. -/
theorem ctor_copy_spec [Inhabited α] (fuel : Nat) (m : Mem α) (other : SingleLinkedList)
    (as : List Nat) (xs : List α) (hM : Models m other as xs) (hs : other.size_ = as.length)
    (hf : as.length ≤ fuel) :
    ∃ m1 l1 cs, SingleLinkedList.ctor_copy fuel m other = .ok (m1, l1) ∧
      Models m1 l1 cs xs ∧ l1.GetSize = other.GetSize ∧ l1.size_ = cs.length ∧
      Models m1 other as xs ∧ (∀ q, q < m.cells.length → m1.read q = m.read q) ∧
      (∀ c ∈ l1.head_ :: cs, c ∉ other.head_ :: as) := by
  obtain ⟨m1, h1, h2, -, h4⟩ := ctor_copy_core fuel m other as xs hM hs hf
  have hlt := hM.cells_lt
  refine ⟨m1, _, _, h1, h2, ?_, by simp, hM.transfer (fun q hq => h4 q (hlt q hq)) _ rfl, h4, ?_⟩
  · simp [SingleLinkedList.GetSize, hs]
  · intro c hc hmem
    have hc1 := hlt c hmem
    simp only [List.mem_cons, List.mem_range'_1] at hc
    omega

/-- Witness for C9 on the list {1, 2, 3}. -/
theorem ctor_copy_spec_witness :
    Models mem123 list123 [1, 2, 3] [1, 2, 3] ∧ list123.size_ = [1, 2, 3].length ∧
    [1, 2, 3].length ≤ 3 ∧
    ∃ m1 l1 cs, SingleLinkedList.ctor_copy 3 mem123 list123 = .ok (m1, l1) ∧
      Models m1 l1 cs [1, 2, 3] ∧ l1.GetSize = list123.GetSize ∧ l1.size_ = cs.length ∧
      Models m1 list123 [1, 2, 3] [1, 2, 3] ∧
      (∀ q, q < mem123.cells.length → m1.read q = mem123.read q) ∧
      (∀ c ∈ l1.head_ :: cs, c ∉ list123.head_ :: [1, 2, 3]) :=
  ⟨by decide, by decide, by decide,
    ctor_copy_spec 3 mem123 list123 [1, 2, 3] [1, 2, 3] (by decide) (by decide) (by decide)⟩

/-- C10: deep-copy independence.  For a list object A with node addresses as and
element sequence xs whose cached size equals its chain length, the copy constructor
returns a list B with the sequence xs, and each of PushFront, PopFront, InsertAfter
(at any position of B), EraseAfter (at any position of B with a successor) and Clear
on B returns, gives B the expected sequence, and leaves A with the same nodes, the
same sequence xs and every cell that existed before the copy unchanged. -/
theorem copy_independent [Inhabited α] (fuel : Nat) (m : Mem α) (A : SingleLinkedList)
    (as : List Nat) (xs : List α) (hM : Models m A as xs) (hs : A.size_ = as.length)
    (hf : as.length ≤ fuel) :
    ∃ m1 B bs, SingleLinkedList.ctor_copy fuel m A = .ok (m1, B) ∧
      Models m1 B bs xs ∧ Models m1 A as xs ∧
      (∀ v, ∃ m2 B2, SingleLinkedList.PushFront m1 B v = .ok (m2, B2) ∧
        Models m2 B2 (m1.cells.length :: bs) (v :: xs) ∧ Models m2 A as xs ∧
        ∀ q, q < m.cells.length → m2.read q = m.read q) ∧
      (∃ m2 B2, SingleLinkedList.PopFront m1 B = .ok (m2, B2) ∧
        Models m2 B2 bs.tail xs.tail ∧ Models m2 A as xs ∧
        ∀ q, q < m.cells.length → m2.read q = m.read q) ∧
      (∀ i v, i ≤ bs.length →
        ∃ m2 B2 it, SingleLinkedList.InsertAfter m1 B ⟨(B.head_ :: bs)[i]?⟩ v
            = .ok (m2, B2, it) ∧
          Models m2 B2 (bs.take i ++ m1.cells.length :: bs.drop i)
            (xs.take i ++ v :: xs.drop i) ∧
          Models m2 A as xs ∧ ∀ q, q < m.cells.length → m2.read q = m.read q) ∧
      (∀ i, i < bs.length →
        ∃ m2 B2 it, SingleLinkedList.EraseAfter m1 B ⟨(B.head_ :: bs)[i]?⟩
            = .ok (m2, B2, it) ∧
          Models m2 B2 (bs.eraseIdx i) (xs.eraseIdx i) ∧
          Models m2 A as xs ∧ ∀ q, q < m.cells.length → m2.read q = m.read q) ∧
      (∃ m2 B2, SingleLinkedList.Clear m1 B = .ok (m2, B2) ∧
        Models m2 B2 [] [] ∧ Models m2 A as xs ∧
        ∀ q, q < m.cells.length → m2.read q = m.read q) := by
  obtain ⟨m1, h1, h2, h3, h4⟩ := ctor_copy_core fuel m A as xs hM hs hf
  have hlt := hM.cells_lt
  have hA1 : Models m1 A as xs := hM.transfer (fun q hq => h4 q (hlt q hq)) _ rfl
  have hBs : (⟨m.cells.length, as.length⟩ : SingleLinkedList).size_
      = (List.range' (m.cells.length + 3) as.length).length := by simp
  -- the cells of B are not cells that existed before the copy
  have hB : ∀ q, q < m.cells.length →
      q ∉ m.cells.length :: List.range' (m.cells.length + 3) as.length := by
    intro q hq hmem
    simp only [List.mem_cons, List.mem_range'_1] at hmem
    omega
  have hlen1 : m.cells.length ≤ m1.cells.length := by omega
  refine ⟨m1, _, _, h1, h2, hA1, ?_, ?_, ?_, ?_, ?_⟩
  · intro v
    obtain ⟨m2, e1, e2, -, e4⟩ := PushFront_core m1 _ _ xs v h2
    have hold : ∀ q, q < m.cells.length → m2.read q = m.read q := fun q hq => by
      rw [e4 q (by omega) (fun e => hB q hq (e ▸ List.mem_cons_self _ _)), h4 q hq]
    exact ⟨m2, _, e1, e2, hM.transfer (fun q hq => hold q (hlt q hq)) _ rfl, hold⟩
  · obtain ⟨m2, e1, e2, -, e4, -, -⟩ := PopFront_core m1 _ _ xs h2 hBs
    have hold : ∀ q, q < m.cells.length → m2.read q = m.read q := fun q hq => by
      rw [e4 q (hB q hq), h4 q hq]
    exact ⟨m2, _, e1, e2, hM.transfer (fun q hq => hold q (hlt q hq)) _ rfl, hold⟩
  · intro i v hi
    obtain ⟨m2, B2, it, e1, e2, -, -, -, -, -, -, -, -, e4⟩ :=
      InsertAfter_core m1 _ _ xs i v h2 hi
    have hold : ∀ q, q < m.cells.length → m2.read q = m.read q := fun q hq => by
      rw [e4 q (by omega) (hB q hq), h4 q hq]
    exact ⟨m2, B2, it, e1, e2, hM.transfer (fun q hq => hold q (hlt q hq)) _ rfl, hold⟩
  · intro i hi
    obtain ⟨m2, B2, it, e1, e2, -, -, -, -, -, -, -, e4⟩ :=
      EraseAfter_core m1 _ _ xs i h2 hBs hi
    have hold : ∀ q, q < m.cells.length → m2.read q = m.read q := fun q hq => by
      rw [e4 q (hB q hq), h4 q hq]
    exact ⟨m2, B2, it, e1, e2, hM.transfer (fun q hq => hold q (hlt q hq)) _ rfl, hold⟩
  · obtain ⟨m2, e1, e2, -, e4, -⟩ := Clear_core m1 _ _ xs h2 hBs
    have hold : ∀ q, q < m.cells.length → m2.read q = m.read q := fun q hq => by
      rw [e4 q (hB q hq), h4 q hq]
    exact ⟨m2, _, e1, e2, hM.transfer (fun q hq => hold q (hlt q hq)) _ rfl, hold⟩


/-- Witness for C10 with the example of the claim: A = {1, 2, 3}, B = copy(A),
B.PushFront(0) leaves A = {1, 2, 3} and gives B = {0, 1, 2, 3}. -/
theorem copy_independent_witness :
    Models mem123 list123 [1, 2, 3] [1, 2, 3] ∧ list123.size_ = [1, 2, 3].length ∧
    [1, 2, 3].length ≤ 3 ∧
    ∃ m1 B bs m2 B2, SingleLinkedList.ctor_copy 3 mem123 list123 = .ok (m1, B) ∧
      SingleLinkedList.PushFront m1 B 0 = .ok (m2, B2) ∧
      Models m2 B2 (m1.cells.length :: bs) [0, 1, 2, 3] ∧
      Models m2 list123 [1, 2, 3] [1, 2, 3] := by
  obtain ⟨m1, B, bs, h1, -, -, h4, -⟩ :=
    copy_independent 3 mem123 list123 [1, 2, 3] [1, 2, 3] (by decide) (by decide) (by decide)
  obtain ⟨m2, B2, e1, e2, e3, -⟩ := h4 0
  exact ⟨by decide, by decide, by decide, m1, B, bs, m2, B2, h1, e1, e2, e3⟩

/-- C3: the cached size is an invariant.  The result of the default constructor, of the
initializer-list constructor and of the copy constructor satisfies size_ = number of
nodes behind the sentinel, and from a list object that satisfies it each of PushFront,
PopFront, InsertAfter (at a position of the list), EraseAfter (at a position with a
successor), Clear, swap (with another such list) and copy assignment (from another
such list that shares no cell with this one, or from itself) returns and leaves every
list involved satisfying it. -/
theorem size_invariant_preserved [Inhabited α] :
    (∀ m : Mem α, SizeInv (SingleLinkedList.ctor_default m).1
      (SingleLinkedList.ctor_default m).2) ∧
    (∀ (m : Mem α) (values : List α),
      ∃ m1 l1, SingleLinkedList.ctor_init m values = .ok (m1, l1) ∧ SizeInv m1 l1) ∧
    (∀ (m : Mem α) (l : SingleLinkedList) (as : List Nat) (xs : List α),
      Models m l as xs → l.size_ = as.length →
      (∀ fuel, as.length ≤ fuel →
        ∃ m1 l1, SingleLinkedList.ctor_copy fuel m l = .ok (m1, l1) ∧
          SizeInv m1 l1 ∧ SizeInv m1 l) ∧
      (∀ v, ∃ m1 l1, SingleLinkedList.PushFront m l v = .ok (m1, l1) ∧ SizeInv m1 l1) ∧
      (∃ m1 l1, SingleLinkedList.PopFront m l = .ok (m1, l1) ∧ SizeInv m1 l1) ∧
      (∀ i v, i ≤ as.length →
        ∃ m1 l1 it, SingleLinkedList.InsertAfter m l ⟨(l.head_ :: as)[i]?⟩ v
          = .ok (m1, l1, it) ∧ SizeInv m1 l1) ∧
      (∀ i, i < as.length →
        ∃ m1 l1 it, SingleLinkedList.EraseAfter m l ⟨(l.head_ :: as)[i]?⟩
          = .ok (m1, l1, it) ∧ SizeInv m1 l1) ∧
      (∃ m1 l1, SingleLinkedList.Clear m l = .ok (m1, l1) ∧ SizeInv m1 l1) ∧
      (∀ (other : SingleLinkedList) (bs : List Nat) (ys : List α),
        Models m other bs ys → other.size_ = bs.length → l.head_ ∉ bs → other.head_ ∉ as →
        ∃ m1 l1 o1, l.swap m other = .ok (m1, l1, o1) ∧ SizeInv m1 l1 ∧ SizeInv m1 o1) ∧
      (∀ (other : SingleLinkedList) (bs : List Nat) (ys : List α) (fuel : Nat),
        Models m other bs ys → other.size_ = bs.length →
        (∀ q ∈ l.head_ :: as, q ∉ other.head_ :: bs) → bs.length ≤ fuel →
        ∃ m1 l1, SingleLinkedList.assign fuel m l other = .ok (m1, l1) ∧
          SizeInv m1 l1 ∧ SizeInv m1 other) ∧
      (∀ fuel, SingleLinkedList.assign fuel m l l = .ok (m, l))) := by
  refine ⟨?_, ?_, ?_⟩
  · intro m
    obtain ⟨m1, h1, h2, -⟩ := ctor_default_core m
    rw [h1]
    exact ⟨[], [], h2, rfl⟩
  · intro m values
    obtain ⟨m1, h1, -, -, h4⟩ := ctor_init_models m values
    exact ⟨m1, _, h1, _, _, h4, by simp⟩
  · intro m l as xs hM hs
    have hlt := hM.cells_lt
    refine ⟨?_, ?_, ?_, ?_, ?_, ?_, ?_, ?_, ?_⟩
    · intro fuel hf
      obtain ⟨m1, h1, h2, -, h4⟩ := ctor_copy_core fuel m l as xs hM hs hf
      exact ⟨m1, _, h1, ⟨_, _, h2, by simp⟩,
        ⟨as, xs, hM.transfer (fun q hq => h4 q (hlt q hq)) _ rfl, hs⟩⟩
    · intro v
      obtain ⟨m1, h1, h2, -⟩ := PushFront_core m l as xs v hM
      exact ⟨m1, _, h1, _, _, h2, by simp [hs]⟩
    · obtain ⟨m1, h1, h2, -⟩ := PopFront_core m l as xs hM hs
      exact ⟨m1, _, h1, _, _, h2, by simp⟩
    · intro i v hi
      obtain ⟨m1, l1, it, h1, h2, -, -, h5, -⟩ := InsertAfter_core m l as xs i v hM hi
      refine ⟨m1, l1, it, h1, _, _, h2, ?_⟩
      rw [h5, hs]
      simp [List.length_take, List.length_drop]
      omega
    · intro i hi
      obtain ⟨m1, l1, it, h1, h2, -, h4, -⟩ := EraseAfter_core m l as xs i hM hs hi
      refine ⟨m1, l1, it, h1, _, _, h2, ?_⟩
      rw [List.length_eraseIdx, if_pos hi]
      omega
    · obtain ⟨m1, h1, h2, -⟩ := Clear_core m l as xs hM hs
      exact ⟨m1, _, h1, _, _, h2, rfl⟩
    · intro other bs ys hO hso hab hba
      obtain ⟨m1, h1, h2, h3, -⟩ := swap_core m l other as bs xs ys hM hO hab hba
      exact ⟨m1, _, _, h1, ⟨_, _, h2, hso⟩, ⟨_, _, h3, hs⟩⟩
    · intro other bs ys fuel hO hso hsep hf
      obtain ⟨m1, h1, h2, h3, -⟩ := assign_core fuel m l other as bs xs ys hM hs hO hso hsep hf
      exact ⟨m1, _, h1, ⟨_, _, h2, by simp⟩, ⟨_, _, h3, hso⟩⟩
    · intro fuel
      simp [SingleLinkedList.assign]

/-- Witness for C3 on the lists {1, 2, 3} and {1, 2} that live side by side: erasing
after the first node of {1, 2, 3}, swapping the two lists and assigning {1, 2} to
{1, 2, 3} keep the invariant. -/
theorem size_invariant_preserved_witness :
    Models mem123_12 list123 [1, 2, 3] [1, 2, 3] ∧ list123.size_ = [1, 2, 3].length ∧
    Models mem123_12 list12 [5, 6] [1, 2] ∧ list12.size_ = [5, 6].length ∧
    (∀ q ∈ list123.head_ :: [1, 2, 3], q ∉ list12.head_ :: [5, 6]) ∧
    (∃ m1 l1 it, SingleLinkedList.EraseAfter mem123_12 list123
      ⟨(list123.head_ :: [1, 2, 3])[1]?⟩ = .ok (m1, l1, it) ∧ SizeInv m1 l1) ∧
    (∃ m1 l1 o1, list123.swap mem123_12 list12 = .ok (m1, l1, o1) ∧
      SizeInv m1 l1 ∧ SizeInv m1 o1) ∧
    (∃ m1 l1, SingleLinkedList.assign 2 mem123_12 list123 list12 = .ok (m1, l1) ∧
      SizeInv m1 l1 ∧ SizeInv m1 list12) := by
  have h := (@size_invariant_preserved Nat _).2.2 mem123_12 list123 [1, 2, 3] [1, 2, 3]
    (by decide) (by decide)
  exact ⟨by decide, by decide, by decide, by decide, by decide,
    h.2.2.2.2.1 1 (by decide),
    h.2.2.2.2.2.2.1 list12 [5, 6] [1, 2] (by decide) (by decide) (by decide) (by decide),
    h.2.2.2.2.2.2.2.1 list12 [5, 6] [1, 2] 2 (by decide) (by decide) (by decide) (by decide)⟩


/-- C11: for a list object whose cached size equals its chain length, Clear() returns
and leaves IsEmpty() true, GetSize() 0 and head_.next_node null (no first element),
with every former node freed; on an already-empty list it leaves the memory and the
list object unchanged. -/
theorem Clear_spec (m : Mem α) (l : SingleLinkedList) (as : List Nat) (xs : List α)
    (hM : Models m l as xs) (hs : l.size_ = as.length) :
    ∃ m1 l1, SingleLinkedList.Clear m l = .ok (m1, l1) ∧
      l1.IsEmpty = true ∧ l1.GetSize = 0 ∧ l1.head_ = l.head_ ∧
      (∃ hv, m1.read l1.head_ = some ⟨hv, none⟩) ∧ Models m1 l1 [] [] ∧
      (∀ a ∈ as, m1.read a = none) ∧ (xs = [] → m1 = m ∧ l1 = l) := by
  obtain ⟨m1, e1, e2, -, -, e5⟩ := Clear_core m l as xs hM hs
  obtain ⟨hn, hr, hc⟩ := e2.read_head
  obtain ⟨-, hnx⟩ := Chain.nil_left hc
  have hlen := Chain.length_eq hM.read_head.choose_spec.2
  refine ⟨m1, _, e1, rfl, rfl, rfl, ⟨hn.value, ?_⟩, e2, e5, ?_⟩
  · rw [hr, ← hnx]
  · intro hxs
    subst hxs
    have has : as = [] := List.length_eq_zero.1 (by simpa using hlen)
    subst has
    cases l with
    | mk head size =>
      simp only [List.length_nil] at hs
      subst hs
      have h0 : SingleLinkedList.Clear m ⟨head, 0⟩ = .ok (m, ⟨head, 0⟩) := rfl
      rw [h0] at e1
      cases e1
      exact ⟨rfl, rfl⟩

/-- Witness for C11 on the list {1, 2, 3}. -/
theorem Clear_spec_witness :
    Models mem123 list123 [1, 2, 3] [1, 2, 3] ∧ list123.size_ = [1, 2, 3].length ∧
    ∃ m1 l1, SingleLinkedList.Clear mem123 list123 = .ok (m1, l1) ∧
      l1.IsEmpty = true ∧ l1.GetSize = 0 ∧ l1.head_ = list123.head_ ∧
      (∃ hv, m1.read l1.head_ = some ⟨hv, none⟩) ∧ Models m1 l1 [] [] ∧
      (∀ a ∈ [1, 2, 3], m1.read a = none) ∧
      (([1, 2, 3] : List Nat) = [] → m1 = mem123 ∧ l1 = list123) :=
  ⟨by decide, by decide, Clear_spec mem123 list123 [1, 2, 3] [1, 2, 3] (by decide) (by decide)⟩

/-- C12: for two list objects whose cached sizes equal their chain lengths, over an
element type with a less-than, operator< returns (with fuel for the shorter list) the
lexicographic comparison of the two element sequences as the specification words it
(first differing element decides, a proper prefix is less), and that comparison is
the standard lexicographic order of lists. -/
theorem operator_lt_spec [LT α] [∀ a b : α, Decidable (a < b)] (fuel : Nat) (m : Mem α)
    (lhs rhs : SingleLinkedList) (as bs : List Nat) (xs ys : List α)
    (hL : Models m lhs as xs) (hsl : lhs.size_ = as.length)
    (hR : Models m rhs bs ys) (hsr : rhs.size_ = bs.length)
    (hf : min xs.length ys.length ≤ fuel) :
    operator_lt fuel m lhs rhs = .ok (lexLess xs ys) ∧
      (lexLess xs ys = true ↔ List.lt xs ys) :=
  ⟨operator_lt_core fuel m lhs rhs as bs xs ys hL hsl hR hsr hf, lexLess_iff_lt xs ys⟩

/-- Witness for C12 with the examples of the claim: {1, 2} < {1, 2, 3},
{1, 2, 3} < {1, 3}, {} < {1}, and not {1} < {1}. -/
theorem operator_lt_spec_witness :
    Models memFive list12 [5, 6] [1, 2] ∧ list12.size_ = [5, 6].length ∧
    Models memFive list123 [1, 2, 3] [1, 2, 3] ∧ list123.size_ = [1, 2, 3].length ∧
    min [1, 2].length [1, 2, 3].length ≤ 2 ∧
    (operator_lt 2 memFive list12 list123 = .ok (lexLess [1, 2] [1, 2, 3]) ∧
      (lexLess [1, 2] [1, 2, 3] = true ↔ List.lt [1, 2] [1, 2, 3])) ∧
    operator_lt 2 memFive list12 list123 = .ok true ∧
    operator_lt 2 memFive list123 list13 = .ok true ∧
    operator_lt 0 memFive listEmpty list1 = .ok true ∧
    operator_lt 1 memFive list1 list1 = .ok false :=
  ⟨by decide, by decide, by decide, by decide, by decide,
    operator_lt_spec 2 memFive list12 list123 [5, 6] [1, 2, 3] [1, 2] [1, 2, 3]
      (by decide) (by decide) (by decide) (by decide) (by decide),
    by decide, by decide, by decide, by decide⟩

/-- C13: for two list objects a and b whose cached sizes equal their chain lengths, all
four ordering operators return, and (a > b) equals (b < a), (a <= b) equals
not (b < a), and (a >= b) equals not (a < b); operator> on (a, b) is
operator< on (b, a) on every input. -/
theorem derived_ordering_operators [LT α] [∀ a b : α, Decidable (a < b)] (fuel : Nat)
    (m : Mem α) (a b : SingleLinkedList) (as bs : List Nat) (xs ys : List α)
    (hA : Models m a as xs) (hsa : a.size_ = as.length)
    (hB : Models m b bs ys) (hsb : b.size_ = bs.length)
    (hf : min xs.length ys.length ≤ fuel) :
    (∀ (fuel2 : Nat) (m2 : Mem α) (c d : SingleLinkedList),
      operator_gt fuel2 m2 c d = operator_lt fuel2 m2 d c) ∧
    ∃ ab ba : Bool, operator_lt fuel m a b = .ok ab ∧ operator_lt fuel m b a = .ok ba ∧
      operator_gt fuel m a b = .ok ba ∧ operator_le fuel m a b = .ok (!ba) ∧
      operator_ge fuel m a b = .ok (!ab) := by
  have hgt : ∀ (fuel2 : Nat) (m2 : Mem α) (c d : SingleLinkedList),
      operator_gt fuel2 m2 c d = operator_lt fuel2 m2 d c := fun _ _ _ _ => rfl
  have h1 := operator_lt_core fuel m a b as bs xs ys hA hsa hB hsb hf
  have h2 := operator_lt_core fuel m b a bs as ys xs hB hsb hA hsa (by rw [Nat.min_comm]; exact hf)
  refine ⟨hgt, lexLess xs ys, lexLess ys xs, h1, h2, ?_, ?_, ?_⟩
  · rw [hgt, h2]
  · simp only [operator_le, hgt, h2]
  · simp only [operator_ge, h1]

/-- Witness for C13 on the lists {1, 2} and {1, 2, 3}. -/
theorem derived_ordering_operators_witness :
    Models memFive list12 [5, 6] [1, 2] ∧ list12.size_ = [5, 6].length ∧
    Models memFive list123 [1, 2, 3] [1, 2, 3] ∧ list123.size_ = [1, 2, 3].length ∧
    min [1, 2].length [1, 2, 3].length ≤ 2 ∧
    ((∀ (fuel2 : Nat) (m2 : Mem Nat) (c d : SingleLinkedList),
      operator_gt fuel2 m2 c d = operator_lt fuel2 m2 d c) ∧
    ∃ ab ba : Bool, operator_lt 2 memFive list12 list123 = .ok ab ∧
      operator_lt 2 memFive list123 list12 = .ok ba ∧
      operator_gt 2 memFive list12 list123 = .ok ba ∧
      operator_le 2 memFive list12 list123 = .ok (!ba) ∧
      operator_ge 2 memFive list12 list123 = .ok (!ab)) :=
  ⟨by decide, by decide, by decide, by decide, by decide,
    derived_ordering_operators 2 memFive list12 list123 [5, 6] [1, 2, 3] [1, 2] [1, 2, 3]
      (by decide) (by decide) (by decide) (by decide) (by decide)⟩

/-- C14: for two list objects A and B, neither of which has its sentinel among the
nodes of the other, A.swap(B) and the free function swap(A, B) return the same state,
in which A holds exactly the former nodes, element sequence and size of B and B holds
exactly those of A; no cell is allocated. -/
theorem swap_spec (m : Mem α) (A B : SingleLinkedList) (as bs : List Nat) (xs ys : List α)
    (hA : Models m A as xs) (hB : Models m B bs ys) (hab : A.head_ ∉ bs)
    (hba : B.head_ ∉ as) :
    ∃ m1 A1 B1, A.swap m B = .ok (m1, A1, B1) ∧ SLL.swap m A B = .ok (m1, A1, B1) ∧
      A1.head_ = A.head_ ∧ B1.head_ = B.head_ ∧
      Models m1 A1 bs ys ∧ A1.GetSize = B.GetSize ∧
      Models m1 B1 as xs ∧ B1.GetSize = A.GetSize ∧
      m1.cells.length = m.cells.length := by
  obtain ⟨m1, h1, h2, h3, h4, -⟩ := swap_core m A B as bs xs ys hA hB hab hba
  exact ⟨m1, _, _, h1, h1, rfl, rfl, h2, rfl, h3, rfl, h4⟩

/-- Witness for C14 on the lists {1, 2, 3} and {1, 2}. -/
theorem swap_spec_witness :
    Models mem123_12 list123 [1, 2, 3] [1, 2, 3] ∧ Models mem123_12 list12 [5, 6] [1, 2] ∧
    list123.head_ ∉ [5, 6] ∧ list12.head_ ∉ [1, 2, 3] ∧
    ∃ m1 A1 B1, list123.swap mem123_12 list12 = .ok (m1, A1, B1) ∧
      SLL.swap mem123_12 list123 list12 = .ok (m1, A1, B1) ∧
      A1.head_ = list123.head_ ∧ B1.head_ = list12.head_ ∧
      Models m1 A1 [5, 6] [1, 2] ∧ A1.GetSize = list12.GetSize ∧
      Models m1 B1 [1, 2, 3] [1, 2, 3] ∧ B1.GetSize = list123.GetSize ∧
      m1.cells.length = mem123_12.cells.length :=
  ⟨by decide, by decide, by decide, by decide,
    swap_spec mem123_12 list123 list12 [1, 2, 3] [5, 6] [1, 2, 3] [1, 2]
      (by decide) (by decide) (by decide) (by decide)⟩

/-- C15: for two different list objects A and B that share no cell and whose cached
sizes equal their chain lengths, the copy assignment A = B returns (with fuel for the
length of B), after it A has exactly the element sequence and size that B had,
whatever A held before, the former nodes of A are freed, and B keeps its nodes and
its sequence; the self-assignment A = A leaves the memory and the list object
unchanged. -/
theorem assign_spec [Inhabited α] (fuel : Nat) (m : Mem α) (A B : SingleLinkedList)
    (as bs : List Nat) (xs ys : List α) (hA : Models m A as xs) (hsa : A.size_ = as.length)
    (hB : Models m B bs ys) (hsb : B.size_ = bs.length)
    (hsep : ∀ q ∈ A.head_ :: as, q ∉ B.head_ :: bs) (hf : bs.length ≤ fuel) :
    (∃ m1 A1 cs, SingleLinkedList.assign fuel m A B = .ok (m1, A1) ∧
      A1.head_ = A.head_ ∧ Models m1 A1 cs ys ∧ A1.GetSize = B.GetSize ∧
      A1.size_ = cs.length ∧ Models m1 B bs ys ∧ (∀ a ∈ as, m1.read a = none)) ∧
    SingleLinkedList.assign fuel m A A = .ok (m, A) := by
  obtain ⟨m1, h1, h2, h3, -, h5⟩ := assign_core fuel m A B as bs xs ys hA hsa hB hsb hsep hf
  refine ⟨⟨m1, _, _, h1, rfl, h2, ?_, by simp, h3, h5⟩, ?_⟩
  · simp [SingleLinkedList.GetSize, hsb]
  · simp [SingleLinkedList.assign]

/-- Witness for C15: {1, 2, 3} = {1, 2}. -/
theorem assign_spec_witness :
    Models mem123_12 list123 [1, 2, 3] [1, 2, 3] ∧ list123.size_ = [1, 2, 3].length ∧
    Models mem123_12 list12 [5, 6] [1, 2] ∧ list12.size_ = [5, 6].length ∧
    (∀ q ∈ list123.head_ :: [1, 2, 3], q ∉ list12.head_ :: [5, 6]) ∧ [5, 6].length ≤ 2 ∧
    ((∃ m1 A1 cs, SingleLinkedList.assign 2 mem123_12 list123 list12 = .ok (m1, A1) ∧
      A1.head_ = list123.head_ ∧ Models m1 A1 cs [1, 2] ∧ A1.GetSize = list12.GetSize ∧
      A1.size_ = cs.length ∧ Models m1 list12 [5, 6] [1, 2] ∧
      (∀ a ∈ [1, 2, 3], m1.read a = none)) ∧
    SingleLinkedList.assign 2 mem123_12 list123 list123 = .ok (mem123_12, list123)) :=
  ⟨by decide, by decide, by decide, by decide, by decide, by decide,
    assign_spec 2 mem123_12 list123 list12 [1, 2, 3] [5, 6] [1, 2, 3] [1, 2]
      (by decide) (by decide) (by decide) (by decide) (by decide) (by decide)⟩


/-- C16: on the lists {1, 2} and {1, 2, 3}, built by the initializer-list constructor,
operator== is not symmetric: ({1, 2} == {1, 2, 3}) returns true, while
({1, 2, 3} == {1, 2}) dereferences the null iterator of the shorter right-hand side,
which is undefined behaviour; each list compares equal to itself. -/
theorem operator_eq_asymmetric :
    SingleLinkedList.ctor_init (⟨[]⟩ : Mem Nat) [1, 2, 3] = .ok (mem123, list123) ∧
    SingleLinkedList.ctor_init mem123 [1, 2] = .ok (mem123_12, list12) ∧
    operator_eq 3 mem123_12 list12 list123 = .ok true ∧
    operator_eq 3 mem123_12 list123 list12 = .ub ∧
    operator_eq 3 mem123_12 list12 list123 ≠ operator_eq 3 mem123_12 list123 list12 ∧
    operator_eq 3 mem123_12 list12 list12 = .ok true ∧
    operator_eq 3 mem123_12 list123 list123 = .ok true := by
  decide

/-- C17: for a list object whose cached size equals its chain length, end(), the const
end() and cend() return the null iterator; the iterator is non-null before each of
the size_ increments that lead there; begin() == end() holds exactly when the list is
empty, and for an empty list end() makes no increment at all. -/
theorem end_spec (m : Mem α) (l : SingleLinkedList) (as : List Nat) (xs : List α)
    (hM : Models m l as xs) (hs : l.size_ = as.length) :
    ∃ b, l.begin m = .ok b ∧ l.cbegin m = .ok b ∧
      l.end_ m = .ok ⟨none⟩ ∧ l.cend m = .ok ⟨none⟩ ∧
      advance m b l.size_ = .ok ⟨none⟩ ∧
      (∀ k, k < l.size_ → ∃ a, advance m b k = .ok ⟨some a⟩) ∧
      (b.eq ⟨none⟩ = true ↔ xs = []) ∧ (b.eq ⟨none⟩ = true ↔ l.IsEmpty = true) ∧
      (xs = [] → l.size_ = 0 ∧ advance m b l.size_ = .ok b) := by
  obtain ⟨hn, -, hc, hb, he⟩ := hM.begin_end hs
  have hlen := Chain.length_eq hc
  have hhead := Chain.head_eq hc
  refine ⟨⟨hn.next_node⟩, hb, hb, he, he, ?_, ?_, ?_, ?_, ?_⟩
  · rw [hs]
    exact advance_chain hc
  · intro k hk
    rw [hs] at hk
    refine ⟨as[k], ?_⟩
    rw [advance_chain_index hc (Nat.le_of_lt hk), List.getElem?_eq_getElem hk]
  · rw [hhead]
    cases as with
    | nil =>
      have hx : xs = [] := List.length_eq_zero.1 (by simpa using hlen.symm)
      simp [BasicIterator.eq, hx]
    | cons a as =>
      cases xs with
      | nil => simp at hlen
      | cons x xs => simp [BasicIterator.eq]
  · rw [hhead]
    cases as with
    | nil => simp [BasicIterator.eq, SingleLinkedList.IsEmpty, hs]
    | cons a as => simp [BasicIterator.eq, SingleLinkedList.IsEmpty, hs]
  · intro hxs
    subst hxs
    have has : as.length = 0 := by simpa using hlen
    rw [hs, has]
    exact ⟨rfl, rfl⟩

/-- Witness for C17 on the list {1, 2, 3}. -/
theorem end_spec_witness :
    Models mem123 list123 [1, 2, 3] [1, 2, 3] ∧ list123.size_ = [1, 2, 3].length ∧
    ∃ b, list123.begin mem123 = .ok b ∧ list123.cbegin mem123 = .ok b ∧
      list123.end_ mem123 = .ok ⟨none⟩ ∧ list123.cend mem123 = .ok ⟨none⟩ ∧
      advance mem123 b list123.size_ = .ok ⟨none⟩ ∧
      (∀ k, k < list123.size_ → ∃ a, advance mem123 b k = .ok ⟨some a⟩) ∧
      (b.eq ⟨none⟩ = true ↔ ([1, 2, 3] : List Nat) = []) ∧
      (b.eq ⟨none⟩ = true ↔ list123.IsEmpty = true) ∧
      (([1, 2, 3] : List Nat) = [] →
        list123.size_ = 0 ∧ advance mem123 b list123.size_ = .ok b) :=
  ⟨by decide, by decide, end_spec mem123 list123 [1, 2, 3] [1, 2, 3] (by decide) (by decide)⟩

/-- C18: on the lists a = {1, 2} and b = {1, 2, 3} trichotomy fails: (a < b) and
(a == b) both return true while (a > b) returns false, and (a <= b and a >= b) is
false although (a == b) is true. -/
theorem trichotomy_broken_by_operator_eq :
    operator_lt 3 mem123_12 list12 list123 = .ok true ∧
    operator_eq 3 mem123_12 list12 list123 = .ok true ∧
    operator_gt 3 mem123_12 list12 list123 = .ok false ∧
    operator_le 3 mem123_12 list12 list123 = .ok true ∧
    operator_ge 3 mem123_12 list12 list123 = .ok false := by
  decide

/-- C19: for every list object whose cached size equals its chain length and every
value v, InsertAfter(before_begin(), v) and PushFront(v) return the same memory and the
same list object, with v in front of the former sequence and size_ one larger, again
the chain length, and the iterator returned by InsertAfter equals begin() of the
result. -/
theorem InsertAfter_before_begin_is_PushFront (m : Mem α) (l : SingleLinkedList)
    (as : List Nat) (xs : List α) (v : α) (hM : Models m l as xs)
    (hs : l.size_ = as.length) :
    ∃ m1 l1 it b, SingleLinkedList.InsertAfter m l l.before_begin v = .ok (m1, l1, it) ∧
      SingleLinkedList.PushFront m l v = .ok (m1, l1) ∧
      Models m1 l1 (m.cells.length :: as) (v :: xs) ∧ l1.GetSize = l.GetSize + 1 ∧
      l1.size_ = (m.cells.length :: as).length ∧
      l1.begin m1 = .ok b ∧ it.eq b = true ∧ it = b := by
  obtain ⟨hn, hr, -⟩ := hM.read_head
  obtain ⟨m1, e1, e2, -, -⟩ := PushFront_core m l as xs v hM
  have e3 := PushFront_eval l v hr
  rw [e3] at e1
  cases e1
  cases hn with
  | mk hv nx =>
    have e4 := InsertAfter_eval l v hr
    obtain ⟨hn1, hr1, hc1⟩ := e2.read_head
    obtain ⟨_, _, _, _, hp, _, _⟩ := Chain.cons_left hc1
    refine ⟨_, _, _, ⟨hn1.next_node⟩, e4, e3, e2, rfl, ?_, ?_, ?_, ?_⟩
    · simp [hs]
    · simp only [SingleLinkedList.begin]
      simp only at hr1
      rw [hr1]
    · simp [BasicIterator.eq, hp]
    · simp [hp]

/-- Witness for C19 on the list {1, 2, 3}. -/
theorem InsertAfter_before_begin_is_PushFront_witness :
    Models mem123 list123 [1, 2, 3] [1, 2, 3] ∧ list123.size_ = [1, 2, 3].length ∧
    ∃ m1 l1 it b, SingleLinkedList.InsertAfter mem123 list123 list123.before_begin 0
        = .ok (m1, l1, it) ∧
      SingleLinkedList.PushFront mem123 list123 0 = .ok (m1, l1) ∧
      Models m1 l1 (mem123.cells.length :: [1, 2, 3]) (0 :: [1, 2, 3]) ∧
      l1.GetSize = list123.GetSize + 1 ∧
      l1.size_ = (mem123.cells.length :: [1, 2, 3]).length ∧
      l1.begin m1 = .ok b ∧ it.eq b = true ∧ it = b :=
  ⟨by decide, by decide,
    InsertAfter_before_begin_is_PushFront mem123 list123 [1, 2, 3] [1, 2, 3] 0 (by decide)
      (by decide)⟩

/-- C20: for a list object whose cached size equals its chain length n, the loop of
Clear() stops after exactly n iterations (for any fuel of at least n) with IsEmpty()
true, in agreement with Clear(); before each of these iterations the list is not
empty, head_.next_node is non-null and points to a live node, so the iteration
returns, and the iteration makes size_ strictly smaller. -/
theorem Clear_loop_terminates (m : Mem α) (l : SingleLinkedList) (as : List Nat)
    (xs : List α) (hM : Models m l as xs) (hs : l.size_ = as.length) :
    (∀ fuel, as.length ≤ fuel →
      ∃ m1 l1, ClearWhile fuel m l = .ok (m1, l1, as.length) ∧ l1.IsEmpty = true ∧
        SingleLinkedList.Clear m l = .ok (m1, ⟨l1.head_, 0⟩)) ∧
    (∀ k, k < as.length →
      ∃ mk lk hv a fn mk1 lk1, ClearSteps k m l = .ok (mk, lk) ∧
        lk.size_ = as.length - k ∧ lk.IsEmpty = false ∧
        mk.read lk.head_ = some ⟨hv, some a⟩ ∧ as[k]? = some a ∧ mk.read a = some fn ∧
        ClearBody mk lk = .ok (mk1, lk1) ∧ lk1.size_ < lk.size_) := by
  obtain ⟨hn, hr, hc⟩ := hM.read_head
  have hh : l.head_ ∉ as := (List.nodup_cons.1 hM.cells_nodup).1
  constructor
  · intro fuel hf
    obtain ⟨m1, e1, e2⟩ := ClearWhile_spec as m l xs hn.value hn.next_node fuel hs hr hc hh hf
    refine ⟨m1, _, e1, rfl, ?_⟩
    simp [SingleLinkedList.Clear, hs, e2]
  · intro k hk
    obtain ⟨mk, e1, e2, e3⟩ :=
      ClearSteps_spec as m l xs hn.value hn.next_node k hs hr hc hh (Nat.le_of_lt hk)
    have hak : as[k]? = some as[k] := List.getElem?_eq_getElem hk
    rw [hak] at e2 e3
    rw [List.drop_eq_getElem_cons hk] at e3
    obtain ⟨x, nx, ys, -, -, r3, -⟩ := Chain.cons_left e3
    have hne : l.head_ ≠ as[k] := fun e => hh (e ▸ List.getElem_mem hk)
    have hb := ClearBody_eval ⟨l.head_, as.length - k⟩ e2 r3 hne
    refine ⟨mk, _, hn.value, as[k], _, _, _, e1, rfl, ?_, e2, hak, r3, hb, ?_⟩
    · simp [SingleLinkedList.IsEmpty]
      omega
    · simp only [decr]
      rw [if_neg (by omega)]
      omega

/-- Witness for C20 on the list {1, 2, 3}. -/
theorem Clear_loop_terminates_witness :
    Models mem123 list123 [1, 2, 3] [1, 2, 3] ∧ list123.size_ = [1, 2, 3].length ∧
    ((∀ fuel, [1, 2, 3].length ≤ fuel →
      ∃ m1 l1, ClearWhile fuel mem123 list123 = .ok (m1, l1, [1, 2, 3].length) ∧
        l1.IsEmpty = true ∧
        SingleLinkedList.Clear mem123 list123 = .ok (m1, ⟨l1.head_, 0⟩)) ∧
    (∀ k, k < [1, 2, 3].length →
      ∃ mk lk hv a fn mk1 lk1, ClearSteps k mem123 list123 = .ok (mk, lk) ∧
        lk.size_ = [1, 2, 3].length - k ∧ lk.IsEmpty = false ∧
        mk.read lk.head_ = some ⟨hv, some a⟩ ∧ [1, 2, 3][k]? = some a ∧
        mk.read a = some fn ∧
        ClearBody mk lk = .ok (mk1, lk1) ∧ lk1.size_ < lk.size_)) :=
  ⟨by decide, by decide,
    Clear_loop_terminates mem123 list123 [1, 2, 3] [1, 2, 3] (by decide) (by decide)⟩


end SLL
